import Mathlib

/-!
Verification development for the command discovery and lazy loading engine of
`your_cli` (file `src/your_cli/loader.py`).

The Python code is shallowly embedded as executable Lean definitions:

* The filesystem tree under the commands root is a `Dir` value.  Only
  directories matter to discovery (`iterdir` entries are filtered with
  `is_dir()` in the source), so a `Dir` carries its name, whether an
  `entry.py` file exists (together with what that module exports as `cli`),
  an optional `meta.yaml` file content, and its subdirectories.  The
  filesystem is immutable for the lifetime of a process, so a path to a file
  is represented by the path string paired with the file's content.
* YAML scalar values that the loader inspects are modelled by `YVal`
  (strings, booleans, null), with Python truthiness as `YVal.truthy`.
  The `HelpGroup` value is modelled as a string (the code never validates
  it, and non-string values are not exercised by any claim).
* Python `dict`s keyed by strings are association lists with insertion
  order and key-overwrite semantics (`dictInsert`, `dictGet`, `dictAppend`).
* `sorted(...)` on names is a stable insertion sort by code points
  (`sortBy`, `strle`); Python string comparison is code-point lexicographic.
  String primitives that do not reduce well in the kernel (`startswith`,
  `strip`, `replace`, comparison) are re-implemented on `String.data`.
* The bounded recursion of `_discover_nested_commands` (it returns `{}` as
  soon as `current_depth >= max_depth`) is embedded with structural fuel
  `max_depth - current_depth`; `_discover_nested_commands` itself is the
  depth-based wrapper.
* Loading (executing) an `entry.py` module is an observable event; loaders
  return the list of loaded entry identifiers (their `import_path`) next to
  their result.  Raised `RuntimeError`s become `Except.error` with the same
  message text.
-/

/-! ## Generic helpers: strings, ordering, Python dictionaries -/

/-- Code-point comparison of char lists (Python string `<=`). -/
def charsLe : List Char → List Char → Bool
  | [], _ => true
  | _ :: _, [] => false
  | c :: cs, d :: ds =>
    if c.toNat < d.toNat then true
    else if d.toNat < c.toNat then false
    else charsLe cs ds

/-- Python string comparison `a <= b` (code-point lexicographic). -/
def strle (a b : String) : Bool := charsLe a.data b.data

/-- Insert into a sorted list, before the first element not below `x`
(stable). -/
def insertBy (le : α → α → Bool) (x : α) : List α → List α
  | [] => [x]
  | y :: ys => if le x y then x :: y :: ys else y :: insertBy le x ys

/-- Stable sort (insertion sort).  `sorted(...)` in Python is a stable sort
by the same order, and stable sorts by a total preorder agree pointwise. -/
def sortBy (le : α → α → Bool) : List α → List α
  | [] => []
  | x :: xs => insertBy le x (sortBy le xs)

/-- `sorted` over strings. -/
def sortStrings (l : List String) : List String := sortBy strle l

/-- Python `"sep".join(parts)`. -/
def joinWith (sep : String) : List String → String
  | [] => ""
  | [x] => x
  | x :: y :: xs => x ++ sep ++ joinWith sep (y :: xs)

/-- Python dict assignment `d[k] = v`: overwrite in place, else append. -/
def dictInsert : List (String × α) → String → α → List (String × α)
  | [], k, v => [(k, v)]
  | (k1, v1) :: rest, k, v =>
    if k1 = k then (k, v) :: rest else (k1, v1) :: dictInsert rest k v

/-- Python dict lookup `d.get(k)`. -/
def dictGet : List (String × α) → String → Option α
  | [], _ => none
  | (k1, v1) :: rest, k => if k1 = k then some v1 else dictGet rest k

/-- Python `d.setdefault(k, []).append(v)` pattern used to bucket rows. -/
def dictAppend : List (String × List β) → String → β → List (String × List β)
  | [], k, v => [(k, [v])]
  | (k1, l1) :: rest, k, v =>
    if k1 = k then (k1, l1 ++ [v]) :: rest else (k1, l1) :: dictAppend rest k v

/-- `p` is a prefix of `l` (Python `str.startswith` on char lists). -/
def startsWithChars : List Char → List Char → Bool
  | [], _ => true
  | _ :: _, [] => false
  | c :: cs, d :: ds => c = d && startsWithChars cs ds

/-- Python `s.startswith(p)`. -/
def strStartsWith (s p : String) : Bool := startsWithChars p.data s.data

/-- `sub` occurs as a contiguous run inside `l`. -/
def infixChars (sub : List Char) : List Char → Bool
  | [] => sub.isEmpty
  | c :: t => startsWithChars sub (c :: t) || infixChars sub t

/-- Python `sub in s` (substring containment). -/
def strContains (s sub : String) : Bool := infixChars sub.data s.data

/-- ASCII whitespace recognised by Python `str.strip()` (the unicode cases
are not exercised here). -/
def isWS (c : Char) : Bool :=
  c = ' ' || c = '\t' || c = '\n' || c = '\r' || c = '\x0b' || c = '\x0c'

/-- Python `s.strip()`. -/
def pyStrip (s : String) : String :=
  String.mk (((s.data.dropWhile isWS).reverse.dropWhile isWS).reverse)

/-- Python `not s.strip()`: every character is whitespace. -/
def pyBlank (s : String) : Bool := s.data.all isWS

/-- A single quote character, as a string. -/
def sglq : String := "\x27"

/-! ## YAML values and truthiness -/

/-- The YAML scalar values the loader inspects. -/
inductive YVal where
  | ystr (s : String)
  | ybool (b : Bool)
  | ynull
deriving DecidableEq

/-- Python truthiness of a YAML value. -/
def YVal.truthy : YVal → Bool
  | .ystr s => !s.data.isEmpty
  | .ybool b => b
  | .ynull => false

/-- Python `a or b` over optional YAML values (`dict.get` yields `None` for
an absent key, and `x or y` takes `y` whenever `x` is falsy). -/
def pyOr (a b : Option YVal) : Option YVal :=
  match a with
  | some v => if v.truthy then some v else b
  | none => b

/-! ## Descriptor files and the metadata loader (`load_meta`, `load_group_meta`) -/

/-- The fields of a parsed `meta.yaml` mapping that the loader reads.
A key that is present with value `null` is `some .ynull`, distinct from an
absent key (`none`). -/
structure MetaMapping where
  helpSummary : Option YVal
  shortHelp : Option YVal
  hidden : Option YVal
  enabled : Option YVal
  helpGroup : Option String
deriving DecidableEq

/-- Content of a `meta.yaml` file: YAML that fails to parse, YAML whose
top-level value is not a mapping, or a mapping. -/
inductive MetaFile where
  | unparsable (emsg : String)
  | notMapping
  | mapping (m : MetaMapping)
deriving DecidableEq

/-- The normalized in-memory descriptor record produced by `load_meta`
(the mutated `data` dict restricted to the fields the engine reads). -/
structure MetaRecord where
  helpSummary : String
  hidden : YVal
  enabled : YVal
  helpGroup : String
deriving DecidableEq

/-- Failure modes of `load_meta`, separate from the message text (the
message also embeds the file path). -/
inductive MetaErrKind where
  | parse (emsg : String)
  | notMapping
  | badSummary
deriving DecidableEq

/-- Path-independent part of `load_meta` (`loader.py` lines 43-68):
alias resolution `data.get("HelpSummary") or data.get("shortHelp")`,
validation that the summary is a non-blank string, defaults for
`hidden` / `enabled` / `HelpGroup`, and the disabled-forces-hidden
override. -/
def load_meta_core (f : MetaFile) : Except MetaErrKind MetaRecord :=
  match f with
  | .unparsable emsg => .error (.parse emsg)
  | .notMapping => .error .notMapping
  | .mapping m =>
    match pyOr m.helpSummary m.shortHelp with
    | some (.ystr s) =>
      if pyBlank s then .error .badSummary
      else
        .ok { helpSummary := s
              hidden :=
                if (m.enabled.getD (.ybool true)).truthy = false then .ybool true
                else m.hidden.getD (.ybool false)
              enabled := m.enabled.getD (.ybool true)
              helpGroup := m.helpGroup.getD "Commands" }
    | _ => .error .badSummary

/-- The `RuntimeError` message raised for each failure mode. -/
def metaErrMsg (pathStr : String) : MetaErrKind → String
  | .parse emsg => "Invalid meta.yaml at " ++ pathStr ++ ": " ++ emsg
  | .notMapping => "Invalid meta.yaml at " ++ pathStr ++ ": expected mapping"
  | .badSummary =>
    "Invalid meta.yaml at " ++ pathStr ++ ": HelpSummary must be a non-empty string"

/-- `load_meta(path)`: the content at `path` is `f`. -/
def load_meta (pathStr : String) (f : MetaFile) : Except String MetaRecord :=
  (load_meta_core f).mapError (metaErrMsg pathStr)

/-- `load_group_meta(path)` (`loader.py` lines 71-107): a missing file and a
mapping whose summary resolves to `None` both yield `none`; parse errors,
non-mappings and blank or non-string summaries raise. -/
def load_group_meta (pathStr : String) (f : Option MetaFile) :
    Except String (Option MetaRecord) :=
  match f with
  | none => .ok none
  | some (.unparsable emsg) => .error (metaErrMsg pathStr (.parse emsg))
  | some .notMapping => .error (metaErrMsg pathStr .notMapping)
  | some (.mapping m) =>
    match pyOr m.helpSummary m.shortHelp with
    | none => .ok none
    | some .ynull => .ok none
    | some (.ystr s) =>
      if pyBlank s then .error (metaErrMsg pathStr .badSummary)
      else
        .ok (some
          { helpSummary := s
            hidden :=
              if (m.enabled.getD (.ybool true)).truthy = false then .ybool true
              else m.hidden.getD (.ybool false)
            enabled := m.enabled.getD (.ybool true)
            helpGroup := m.helpGroup.getD "Commands" })
    | some (.ybool _) => .error (metaErrMsg pathStr .badSummary)

/-! ## The filesystem model -/

/-- What an `entry.py` module exports as `cli` once executed:
a `click.Group`, a plain `click.Command`, or nothing usable. -/
inductive ExportObj where
  | ecommand
  | egroup
  | enone
deriving DecidableEq

/-- A directory in the commands tree: its name, its `entry.py` file (if
present, with the export the module would produce), its `meta.yaml` file
content (if present), and its subdirectories. -/
inductive Dir where
  | mk (name : String) (entry : Option ExportObj) (meta : Option MetaFile) (subs : List Dir)

def Dir.name : Dir → String
  | .mk n _ _ _ => n

def Dir.entry : Dir → Option ExportObj
  | .mk _ e _ _ => e

def Dir.meta : Dir → Option MetaFile
  | .mk _ _ m _ => m

def Dir.subs : Dir → List Dir
  | .mk _ _ _ s => s

/-- `sorted(p for p in base_dir.iterdir() if p.is_dir())`: for children of
one directory, path order is name order. -/
def sortDirs (l : List Dir) : List Dir := sortBy (fun a b => strle a.name b.name) l

/-- Skip interpreter / tooling artefacts:
`name.startswith(".") or name.startswith("__")`. -/
def hiddenName (s : String) : Bool := strStartsWith s "." || strStartsWith s "__"

/-- `_safe_name`: `name.replace("_", "-")`. -/
def _safe_name (s : String) : String :=
  String.mk (s.data.map (fun c => if c = '_' then '-' else c))

/-! ## Discovery output records -/

/-- `CommandSpec` (`loader.py` lines 15-25).  `entry_path` / `meta_path`
are kept as path strings paired with the (immutable) file contents
`entryObj` / `metaF` found there at discovery time; `import_path` is
renamed `imp_path` here. -/
inductive CommandSpec where
  | mk (name : String)
      (entry_path : String) (entryObj : ExportObj)
      (meta_path : String) (metaF : MetaFile)
      (imp_path : List String)
      (hidden : YVal) (enabled : YVal) (help_group : String)
      (is_group : Bool)
      (subcommands : Option (List (String × CommandSpec)))

def CommandSpec.name : CommandSpec → String
  | .mk n _ _ _ _ _ _ _ _ _ _ => n

def CommandSpec.entry_path : CommandSpec → String
  | .mk _ e _ _ _ _ _ _ _ _ _ => e

def CommandSpec.entryObj : CommandSpec → ExportObj
  | .mk _ _ eo _ _ _ _ _ _ _ _ => eo

def CommandSpec.meta_path : CommandSpec → String
  | .mk _ _ _ mp _ _ _ _ _ _ _ => mp

def CommandSpec.metaF : CommandSpec → MetaFile
  | .mk _ _ _ _ mf _ _ _ _ _ _ => mf

def CommandSpec.imp_path : CommandSpec → List String
  | .mk _ _ _ _ _ ip _ _ _ _ _ => ip

def CommandSpec.hidden : CommandSpec → YVal
  | .mk _ _ _ _ _ _ h _ _ _ _ => h

def CommandSpec.enabled : CommandSpec → YVal
  | .mk _ _ _ _ _ _ _ e _ _ _ => e

def CommandSpec.help_group : CommandSpec → String
  | .mk _ _ _ _ _ _ _ _ hg _ _ => hg

def CommandSpec.is_group : CommandSpec → Bool
  | .mk _ _ _ _ _ _ _ _ _ g _ => g

def CommandSpec.subcommands : CommandSpec → Option (List (String × CommandSpec))
  | .mk _ _ _ _ _ _ _ _ _ _ s => s

/-- The nested specs of a command (`spec.subcommands` with Python
truthiness: `None` and `{}` behave identically downstream). -/
def subsList (s : CommandSpec) : List (String × CommandSpec) :=
  (CommandSpec.subcommands s).getD []

/-- `CommandGroupSpec` (`loader.py` lines 28-36); `import_command` is
renamed `imp_command`.  `entry` is the group's own `entry.py` path and
export, when that file exists. -/
structure CommandGroupSpec where
  help_summary : Option String
  entry : Option (String × ExportObj)
  imp_command : String
  subcommands : List (String × CommandSpec)
  hidden : YVal
  enabled : YVal
  help_group : String

/-- The `CommandSpec` built at `loader.py` lines 175-185. -/
def mkCommandSpec (d : Dir) (eo : ExportObj) (mf : MetaFile) (imp_path : List String)
    (fsBase : String) (meta : MetaRecord) (nested : List (String × CommandSpec)) :
    CommandSpec :=
  CommandSpec.mk (_safe_name d.name)
    (fsBase ++ "/" ++ d.name ++ "/entry.py") eo
    (fsBase ++ "/" ++ d.name ++ "/meta.yaml") mf
    (imp_path ++ [d.name])
    meta.hidden meta.enabled meta.helpGroup
    (!nested.isEmpty)
    (if nested.isEmpty then none else some nested)

/-! ## Tree discovery (`_discover_nested_commands`, `discover_specs`) -/

/-- The error recorded for a candidate directory missing its entry file or
descriptor: `f"{path_str}: missing {", ".join(missing)}"`. -/
def missingMsg (ip : List String) (n : String) (eOpt : Option ExportObj)
    (mOpt : Option MetaFile) : String :=
  joinWith "/" (ip ++ [n]) ++ ": missing " ++
    joinWith ", " ((if eOpt.isSome then [] else ["entry.py"]) ++
      (if mOpt.isSome then [] else ["meta.yaml"]))

/-- The loop body of `_discover_nested_commands` (`loader.py` lines
134-187), parameterized by the scan used one level deeper (`recurse`).
`errors` is the accumulator list threaded through the whole walk. -/
def discoverFold
    (recurse : List Dir → List String → String → List String →
      List (String × CommandSpec) × List String)
    (dirs : List Dir) (imp_path : List String) (fsBase : String)
    (specs : List (String × CommandSpec)) (errors : List String) :
    List (String × CommandSpec) × List String :=
  match dirs with
  | [] => (specs, errors)
  | d :: rest =>
    if hiddenName d.name then
      discoverFold recurse rest imp_path fsBase specs errors
    else
      match d.entry, d.meta with
      | some eo, some mf =>
        match load_meta (fsBase ++ "/" ++ d.name ++ "/meta.yaml") mf with
        | .error e =>
          discoverFold recurse rest imp_path fsBase specs (errors ++ [e])
        | .ok meta =>
          let nres := recurse (sortDirs d.subs) (imp_path ++ [d.name])
            (fsBase ++ "/" ++ d.name) errors
          discoverFold recurse rest imp_path fsBase
            (dictInsert specs (_safe_name d.name)
              (mkCommandSpec d eo mf imp_path fsBase meta nres.1))
            nres.2
      | eOpt, mOpt =>
        discoverFold recurse rest imp_path fsBase specs
          (errors ++ [missingMsg imp_path d.name eOpt mOpt])

/-- The recursive scan with structural fuel: fuel `0` is the
`current_depth >= max_depth` cutoff (return `{}`), fuel `n + 1` scans one
level and recurses with fuel `n`. -/
def discoverLevel : Nat → List Dir → List String → String → List String →
    List (String × CommandSpec) × List String
  | 0, _, _, _, errors => ([], errors)
  | fuel + 1, dirs, imp_path, fsBase, errors =>
    discoverFold (discoverLevel fuel) dirs imp_path fsBase [] errors

/-- `_discover_nested_commands(base_dir, import_path, current_depth,
max_depth)` with the error accumulator made explicit.  The remaining
recursion budget at depth `current_depth` is `max_depth - current_depth`
(zero exactly when `current_depth >= max_depth`). -/
def _discover_nested_commands (base : Dir) (imp_path : List String) (fsBase : String)
    (current_depth max_depth : Nat) (errors : List String) :
    List (String × CommandSpec) × List String :=
  discoverLevel (max_depth - current_depth) (sortDirs base.subs) imp_path fsBase errors

/-- The group's own `entry.py` location and export, when the file exists. -/
def groupEntry (rootPath : String) (d : Dir) : Option (String × ExportObj) :=
  match d.entry with
  | some eo => some (rootPath ++ "/" ++ d.name ++ "/entry.py", eo)
  | none => none

/-- The `CommandGroupSpec` built at `loader.py` lines 237-245. -/
def mkGroupSpec (d : Dir) (rootPath : String) (gm : Option MetaRecord)
    (subs : List (String × CommandSpec)) : CommandGroupSpec :=
  { help_summary := gm.map (fun g => pyStrip g.helpSummary)
    entry := groupEntry rootPath d
    imp_command := d.name
    subcommands := subs
    hidden := (gm.map MetaRecord.hidden).getD (.ybool false)
    enabled := (gm.map MetaRecord.enabled).getD (.ybool true)
    help_group := (gm.map MetaRecord.helpGroup).getD "Commands" }

/-- The loop over top-level group directories in `discover_specs`
(`loader.py` lines 197-245).  A group is retained only when it has at
least one valid nested unit or its own `entry.py` file. -/
def discoverGroups (md : Nat) (rootPath : String) (dirs : List Dir)
    (specs : List (String × CommandGroupSpec)) (errors : List String) :
    List (String × CommandGroupSpec) × List String :=
  match dirs with
  | [] => (specs, errors)
  | d :: rest =>
    if hiddenName d.name then discoverGroups md rootPath rest specs errors
    else
      let gmRes := load_group_meta (rootPath ++ "/" ++ d.name ++ "/meta.yaml") d.meta
      let gm : Option MetaRecord := match gmRes with | .error _ => none | .ok g => g
      let errors1 := match gmRes with | .error e => errors ++ [e] | .ok _ => errors
      let sres := _discover_nested_commands d [d.name] (rootPath ++ "/" ++ d.name)
        0 md errors1
      let specs2 :=
        if sres.1.isEmpty && (groupEntry rootPath d).isNone then specs
        else dictInsert specs (_safe_name d.name) (mkGroupSpec d rootPath gm sres.1)
      discoverGroups md rootPath rest specs2 sres.2

/-- `discover_specs(commands_dir, max_depth)`: `none` models a
`commands_dir` that does not exist.  The aggregated `RuntimeError` is
raised only after the whole tree was walked, iff any error accumulated. -/
def discover_specs (commands_dir : Option Dir) (max_depth : Nat) :
    Except String (List (String × CommandGroupSpec)) :=
  match commands_dir with
  | none => .ok []
  | some root =>
    let res := discoverGroups max_depth root.name (sortDirs root.subs) [] []
    if res.2.isEmpty then .ok res.1
    else
      .error ("Invalid command plugins detected:\n" ++
        joinWith "\n" (res.2.map (fun e => "- " ++ e)))

/-- Default `max_depth` of `discover_specs`. -/
def defaultMaxDepth : Nat := 5

/-! ## Lazy command nodes and loading (`load_click_command` and friends) -/

/-- The click command objects the dispatcher manipulates.  `stubGroup` /
`stubCmd` are the hidden disabled stubs (their callback prints `msg` to
stderr and raises `SystemExit(1)`); `leaf` is a loaded terminal command;
`lazyGroup` is any of the three lazy group wrappers (`LazySubGroup`,
`LazyPluginGroup`, `LazyNestedGroup` — their `list_commands`,
`get_command` and `format_commands` are identical), holding the spec dict
its children are loaded from.  Subcommands an entry module registers on
its own exported `click.Group` are outside the model. -/
inductive CC where
  | stubGroup (name : String) (msg : String)
  | stubCmd (name : String) (msg : String)
  | leaf (name : String) (short_help : Option String) (helpText : Option String)
      (hidden : YVal)
  | lazyGroup (name : String) (short_help : Option String) (helpText : Option String)
      (hidden : YVal) (specs : List (String × CommandSpec))

/-- The message of a disabled unit's stub:
`f"Command '{'.'.join(spec.import_path)}' is disabled."`. -/
def disabledMsg (imp_path : List String) : String :=
  "Command " ++ sglq ++ joinWith "." imp_path ++ sglq ++ " is disabled."

/-- `type(cli).__name__` for the export shapes in the model. -/
def typeName : ExportObj → String
  | .egroup => "Group"
  | .ecommand => "Command"
  | .enone => "NoneType"

/-- `load_click_command(spec)` (`loader.py` lines 253-305).  Returns the
list of entry modules executed (by `import_path`) and the resulting click
object or the raised error.  A disabled spec short-circuits to a stub
before anything is read or executed; otherwise the descriptor is re-read,
the entry module executed, its export validated against the discovered
capability, and the descriptor's help text and hidden flag written over
the object. -/
def load_click_command (spec : CommandSpec) : List (List String) × Except String CC :=
  if spec.enabled.truthy = false then
    if spec.is_group then
      ([], .ok (.stubGroup spec.name (disabledMsg spec.imp_path)))
    else
      ([], .ok (.stubCmd spec.name (disabledMsg spec.imp_path)))
  else
    match load_meta spec.meta_path spec.metaF with
    | .error e => ([], .error e)
    | .ok meta =>
      if spec.is_group then
        match spec.entryObj with
        | .egroup =>
          ([spec.imp_path],
            .ok (.lazyGroup spec.name (some meta.helpSummary) (some meta.helpSummary)
              spec.hidden (subsList spec)))
        | eo =>
          ([spec.imp_path],
            .error (spec.entry_path ++ " must export " ++ sglq ++ "cli" ++ sglq ++
              " as a click.Group (found " ++ typeName eo ++ ")"))
      else
        match spec.entryObj with
        | .enone =>
          ([spec.imp_path],
            .error (spec.entry_path ++ " must export " ++ sglq ++ "cli" ++ sglq ++
              " as a click.Command (found NoneType)"))
        | _ =>
          ([spec.imp_path],
            .ok (.leaf spec.name (some meta.helpSummary) (some meta.helpSummary)
              spec.hidden))

/-- `load_click_group` (`loader.py` lines 308-325): execute the group's own
`entry.py` and require a `click.Group` export.  A `click.Command` export
fails; the base group carries the entry module's own (unmodelled) help. -/
def load_click_group (group_name : String) (entry_path : String) (eo : ExportObj)
    (imp_command : String) : List (List String) × Except String CC :=
  match eo with
  | .egroup => ([[imp_command]], .ok (.lazyGroup group_name none none (.ybool false) []))
  | _ =>
    ([[imp_command]],
      .error (entry_path ++ " must export " ++ sglq ++ "cli" ++ sglq ++
        " as a click.Group"))

/-- `load_click_command_from_entry` (`loader.py` lines 328-346): any
`click.Command` (including a `click.Group`) is accepted.  A group export
resolves its own children from the entry module (outside the model), so it
is represented with an empty spec dict. -/
def load_click_command_from_entry (cmd_name : String) (entry_path : String)
    (eo : ExportObj) (imp_command : String) : List (List String) × Except String CC :=
  match eo with
  | .enone =>
    ([[imp_command]],
      .error (entry_path ++ " must export " ++ sglq ++ "cli" ++ sglq ++
        " as a click.Command or click.Group"))
  | .ecommand => ([[imp_command]], .ok (.leaf cmd_name none none (.ybool false)))
  | .egroup => ([[imp_command]], .ok (.lazyGroup cmd_name none none (.ybool false) []))

/-- Overwrite a node's help texts with the descriptor's summary
(`cli.short_help = ...; cli.help = ...`).  The disabled stubs never reach
this code path; on them this is the identity. -/
def ccSetHelp (cc : CC) (h : String) : CC :=
  match cc with
  | .leaf n _ _ hd => .leaf n (some h) (some h) hd
  | .lazyGroup n _ _ hd sp => .lazyGroup n (some h) (some h) hd sp
  | other => other

/-- Overwrite a node's hidden flag (`cli.hidden = ...`). -/
def ccSetHidden (cc : CC) (hd : YVal) : CC :=
  match cc with
  | .leaf n sh ht _ => .leaf n sh ht hd
  | .lazyGroup n sh ht _ sp => .lazyGroup n sh ht hd sp
  | other => other

/-- Python truthiness of an optional string. -/
def optStrTruthy : Option String → Bool
  | none => false
  | some s => !s.data.isEmpty

/-- `RootCommand.get_command` lines 570-576: apply the group descriptor's
summary when truthy, then its hidden flag. -/
def applyGroupMeta (gs : CommandGroupSpec) (cc : CC) : CC :=
  ccSetHidden
    (if optStrTruthy gs.help_summary then ccSetHelp cc ((gs.help_summary).getD "") else cc)
    gs.hidden

/-- `RootCommand.get_command(ctx, cmd_name)` (`loader.py` lines 543-578),
with the executed entry modules recorded. -/
def root_get_command (gspecs : List (String × CommandGroupSpec)) (cmd_name : String) :
    List (List String) × Option (Except String CC) :=
  match dictGet gspecs cmd_name with
  | none => ([], none)
  | some gs =>
    if gs.enabled.truthy = false then
      ([], some (.ok (.stubGroup cmd_name
        ("Command group " ++ sglq ++ cmd_name ++ sglq ++ " is disabled."))))
    else
      match gs.entry with
      | some (epath, eo) =>
        if gs.subcommands.isEmpty then
          match load_click_command_from_entry cmd_name epath eo gs.imp_command with
          | (l, .error e) => (l, some (.error e))
          | (l, .ok cc) => (l, some (.ok (applyGroupMeta gs cc)))
        else
          match load_click_group cmd_name epath eo gs.imp_command with
          | (l, .error e) => (l, some (.error e))
          | (l, .ok _base) =>
            (l, some (.ok (applyGroupMeta gs
              (.lazyGroup cmd_name none none (.ybool false) gs.subcommands))))
      | none =>
        ([], some (.ok (applyGroupMeta gs
          (.lazyGroup cmd_name none none (.ybool false) gs.subcommands))))

/-- `get_command` of the lazy group wrappers (`loader.py` lines 359-363 and
identical siblings): look the name up in the spec dict and load it.  On
non-groups and on the childless disabled stub no name resolves. -/
def ccGet (cc : CC) (s : String) : Option (List (List String) × Except String CC) :=
  match cc with
  | .lazyGroup _ _ _ _ specs =>
    match dictGet specs s with
    | none => none
    | some sp => some (load_click_command sp)
  | _ => none

/-- Outcome of a multi-segment dispatch. -/
inductive Resolution where
  | notFound
  | loadError (e : String)
  | resolved (cc : CC)

/-- Walk the remaining path segments from a resolved node, accumulating
every entry module executed on the way. -/
def resolveSegs (cc : CC) : List String → List (List String) × Resolution
  | [] => ([], .resolved cc)
  | s :: rest =>
    match ccGet cc s with
    | none => ([], .notFound)
    | some (l, .error e) => (l, .loadError e)
    | some (l, .ok cc2) =>
      let r := resolveSegs cc2 rest
      (l ++ r.1, r.2)

/-- Dispatch a dotted command path from the root: click resolves one
segment at a time, asking each resolved node for the next name. -/
def resolvePath (gspecs : List (String × CommandGroupSpec)) :
    List String → List (List String) × Resolution
  | [] => ([], .notFound)
  | g :: rest =>
    match root_get_command gspecs g with
    | (l, none) => (l, .notFound)
    | (l, some (.error e)) => (l, .loadError e)
    | (l, some (.ok cc)) =>
      let r := resolveSegs cc rest
      (l ++ r.1, r.2)

/-- The hidden flag click reads off a node (the stubs are created with
`hidden=True`). -/
def ccHidden : CC → YVal
  | .stubGroup _ _ => .ybool true
  | .stubCmd _ _ => .ybool true
  | .leaf _ _ _ h => h
  | .lazyGroup _ _ _ h _ => h

/-- `cmd.get_short_help_str(limit)` modulo width truncation: the short
help, empty when unset (the stub callbacks have no docstring). -/
def ccShortHelp : CC → String
  | .stubGroup _ _ => ""
  | .stubCmd _ _ => ""
  | .leaf _ sh _ _ => sh.getD ""
  | .lazyGroup _ sh _ _ _ => sh.getD ""

/-- What invoking a node's callback does: the disabled stubs print their
message to stderr and exit with status 1; every other node runs the logic
its entry module defined (outside the model). -/
inductive InvokeOutcome where
  | fails (code : Nat) (msg : String)
  | runsEntry
deriving DecidableEq

def CC.invoke : CC → InvokeOutcome
  | .stubGroup _ m => .fails 1 m
  | .stubCmd _ m => .fails 1 m
  | _ => .runsEntry

/-! ## Grouped help rendering (`format_commands`) -/

/-- Sort key of `sorted(groups.keys(), key=lambda g: (g != "Commands", g))`:
the tag `"Commands"` first, the rest in code-point order. -/
def tagLe (a b : String) : Bool :=
  if a = "Commands" then true
  else if b = "Commands" then false
  else strle a b

/-- One turn of the `format_commands` gathering loop, abstracted over how a
name produces its (tag, row): `.error` when loading the child raises,
`.ok none` when the name is skipped (missing or hidden), `.ok (some _)`
otherwise. -/
def gatherRows (getRow : String → Except String (Option (String × (String × String)))) :
    List String → List (String × List (String × String)) →
    Except String (List (String × List (String × String)))
  | [], acc => .ok acc
  | n :: ns, acc =>
    match getRow n with
    | .error e => .error e
    | .ok none => gatherRows getRow ns acc
    | .ok (some (tag, row)) => gatherRows getRow ns (dictAppend acc tag row)

/-- The (tag, row) of one child in the lazy wrappers' `format_commands`
(`loader.py` lines 365-392): load the child, skip it if hidden, tag it with
its spec's `help_group`. -/
def childRow (specs : List (String × CommandSpec)) (n : String) :
    Except String (Option (String × (String × String))) :=
  match dictGet specs n with
  | none => .ok none
  | some sp =>
    match (load_click_command sp).2 with
    | .error e => .error e
    | .ok cc =>
      if (ccHidden cc).truthy then .ok none
      else .ok (some (sp.help_group, (n, ccShortHelp cc)))

/-- Order the gathered buckets: `"Commands"` first then alphabetical, and
emit only non-empty sections (`if command_rows:`). -/
def emitSections (buckets : List (String × List (String × String))) :
    List (String × List (String × String)) :=
  (sortBy tagLe (buckets.map (fun p => p.1))).filterMap (fun g =>
    match dictGet buckets g with
    | some rows => if rows.isEmpty then none else some (g, rows)
    | none => none)

/-- `format_commands` of the lazy group wrappers, as the list of rendered
sections (tag, rows), each row being (name, short help). -/
def format_commands (specs : List (String × CommandSpec)) :
    Except String (List (String × List (String × String))) :=
  match gatherRows (childRow specs) (sortStrings (specs.map (fun p => p.1))) [] with
  | .error e => .error e
  | .ok buckets => .ok (emitSections buckets)

/-- The (tag, row) of one top-level entry in `RootCommand.format_commands`
(`loader.py` lines 580-607). -/
def rootRow (gspecs : List (String × CommandGroupSpec)) (n : String) :
    Except String (Option (String × (String × String))) :=
  match (root_get_command gspecs n).2 with
  | none => .ok none
  | some (.error e) => .error e
  | some (.ok cc) =>
    if (ccHidden cc).truthy then .ok none
    else
      match dictGet gspecs n with
      | some gs => .ok (some (gs.help_group, (n, ccShortHelp cc)))
      | none => .ok none

/-- `RootCommand.format_commands`, as rendered sections. -/
def root_format_commands (gspecs : List (String × CommandGroupSpec)) :
    Except String (List (String × List (String × String))) :=
  match gatherRows (rootRow gspecs) (sortStrings (gspecs.map (fun p => p.1))) [] with
  | .error e => .error e
  | .ok buckets => .ok (emitSections buckets)

/-! ## Specification-side predicates over discovery output -/

/-- Well-formedness of a discovered spec under display-name path `pre` and
key `k`: its import path, display-normalized, is `pre ++ [k]`, recursively
for its children.  Discovery establishes this for the whole tree. -/
inductive SpecWF : List String → String → CommandSpec → Prop where
  | mk (pre : List String) (k : String) (s : CommandSpec) :
      s.imp_path.map _safe_name = pre ++ [k] →
      (∀ q ∈ subsList s, SpecWF (pre ++ [k]) q.1 q.2) →
      SpecWF pre k s

/-- A property holding of a discovered spec and every spec nested below
it. -/
inductive SpecTreeAll (P : CommandSpec → Prop) : CommandSpec → Prop where
  | mk (s : CommandSpec) :
      P s → (∀ q ∈ subsList s, SpecTreeAll P q.2) → SpecTreeAll P s

/-- Well-formedness of a click node under display-name path `pre`: a lazy
group's spec dict is well-formed; other nodes carry no spec dict. -/
def CCWF (pre : List String) : CC → Prop
  | .lazyGroup _ _ _ _ specs => ∀ q ∈ specs, SpecWF pre q.1 q.2
  | _ => True

/-- The relative paths of the broken candidate directories the recursive
scan reaches at one level, mirroring the walk structure of
`_discover_nested_commands`: siblings of a broken unit are still scanned,
but directories below a broken unit (the loop `continue`s) and below the
depth cap are not reached. -/
def brokenFold (recurse : List Dir → List String → List String)
    (dirs : List Dir) (imp_path : List String) : List String :=
  match dirs with
  | [] => []
  | d :: rest =>
    if hiddenName d.name then brokenFold recurse rest imp_path
    else
      match d.entry, d.meta with
      | some _, some mf =>
        match load_meta_core mf with
        | .error _ => joinWith "/" (imp_path ++ [d.name]) :: brokenFold recurse rest imp_path
        | .ok _ =>
          recurse (sortDirs d.subs) (imp_path ++ [d.name]) ++ brokenFold recurse rest imp_path
      | _, _ => joinWith "/" (imp_path ++ [d.name]) :: brokenFold recurse rest imp_path

/-- Scan-reachable broken units, with the same depth budget as discovery. -/
def brokenLevel : Nat → List Dir → List String → List String
  | 0, _, _ => []
  | fuel + 1, dirs, ip => brokenFold (brokenLevel fuel) dirs ip

/-- All broken units the full discovery walk over `t` reaches (grouped per
top-level directory; top-level directories themselves need no files). -/
def brokenAll (t : Dir) (md : Nat) : List String :=
  ((sortDirs t.subs).map (fun d =>
    if hiddenName d.name then [] else brokenLevel md (sortDirs d.subs) [d.name])).flatten

/-- Find a child directory by its on-disk name. -/
def findChild (d : Dir) (n : String) : Option Dir :=
  d.subs.find? (fun c => c.name == n)

/-- No two children of `d` collapse to the same display name under
`_safe_name` (this also forces distinct on-disk names). -/
def safeNodupSubs (d : Dir) : Prop :=
  (d.subs.map (fun c => _safe_name (Dir.name c))).Nodup

/-- A chain of on-disk directory names below `d`, none hidden, with
collision-free display names at every level passed through. -/
def chainCond : Dir → List String → Prop
  | _, [] => True
  | d, n :: us =>
    safeNodupSubs d ∧ hiddenName n = false ∧
      match findChild d n with
      | some c => chainCond c us
      | none => False

/-- Look a display-name path up in a nested spec dict. -/
def subsAt : List (String × CommandSpec) → List String → Option CommandSpec
  | _, [] => none
  | l, k :: ks =>
    match dictGet l k with
    | none => none
    | some s =>
      match ks with
      | [] => some s
      | _ :: _ => subsAt (subsList s) ks

/-- Look a display-name path up in the discovered tree: first segment in
the group dict, the rest in nested spec dicts. -/
def unitAt (gspecs : List (String × CommandGroupSpec)) : List String → Option CommandSpec
  | [] => none
  | g :: us =>
    match dictGet gspecs g with
    | none => none
    | some gs => subsAt gs.subcommands us

/-! ## Concrete descriptors and trees used by witnesses and counterexamples -/

/-- A plain valid descriptor mapping with only a summary. -/
def metaSimple (s : String) : MetaFile :=
  .mapping { helpSummary := some (.ystr s), shortHelp := none, hidden := none,
             enabled := none, helpGroup := none }

/-- A descriptor that disables its unit while claiming `hidden: false`. -/
def metaDisabledVisible : MetaFile :=
  .mapping { helpSummary := some (.ystr "Off."), shortHelp := none,
             hidden := some (.ybool false), enabled := some (.ybool false),
             helpGroup := none }

/-- A descriptor whose current help key holds an empty string next to a
non-empty legacy key. -/
def metaBlankCurrent : MetaFile :=
  .mapping { helpSummary := some (.ystr ""), shortHelp := some (.ystr "legacy text"),
             hidden := none, enabled := none, helpGroup := none }

/-- A small healthy tree: root `commands` holding group `alpha` (own
`entry.py` exporting a group) with leaf units `beta` and `gamma`. -/
def dirBeta : Dir := .mk "beta" (some .ecommand) (some (metaSimple "Beta.")) []

def dirGamma : Dir := .mk "gamma" (some .ecommand) (some (metaSimple "Gamma.")) []

def dirAlpha : Dir := .mk "alpha" (some .egroup) none [dirBeta, dirGamma]

def treeAlpha : Dir := .mk "commands" none none [dirAlpha]

/-- Its discovered groups (the scan succeeds; see `c1WitnessOk`). -/
def groupsAlpha : List (String × CommandGroupSpec) :=
  (discover_specs (some treeAlpha) defaultMaxDepth).toOption.getD []

/-- A tree with a broken unit (`g/u1`, no descriptor) hiding a second
broken directory below it (`g/u1/v`, no entry file). -/
def dirV : Dir := .mk "v" none (some (metaSimple "V.")) []

def dirU1 : Dir := .mk "u1" (some .ecommand) none [dirV]

def treeBrokenNested : Dir := .mk "commands" none none [.mk "g" (some .egroup) none [dirU1]]

/-- Sibling units whose names collide after `_safe_name`: `grp/x-y` and
`grp/x_y` are both valid. -/
def treeCollide : Dir :=
  .mk "commands" none none
    [.mk "grp" none none
      [.mk "x-y" (some .ecommand) (some (metaSimple "Hyphen.")) [],
       .mk "x_y" (some .ecommand) (some (metaSimple "Underscore.")) []]]

/-- The same collision shape for the discovery-completeness claim:
`h/p-q` and `h/p_q`. -/
def treeCollide2 : Dir :=
  .mk "commands" none none
    [.mk "h" none none
      [.mk "p-q" (some .ecommand) (some (metaSimple "Hyphen.")) [],
       .mk "p_q" (some .ecommand) (some (metaSimple "Underscore.")) []]]

/-- A valid chain of nesting `n` units deep ending in a broken directory:
`chainDir 0` is the broken bottom (no files at all), `chainDir (k+1)` is a
valid unit holding the next link. -/
def chainDir : Nat → Dir
  | 0 => .mk "deep" none none []
  | k + 1 => .mk "u" (some .ecommand) (some (metaSimple "Link.")) [chainDir k]

/-- Root holding one group `g` (with entry) whose single child starts a
chain `n` links long. -/
def chainRoot (n : Nat) : Dir :=
  .mk "commands" none none [.mk "g" (some .egroup) none [chainDir n]]

/-- A group with a disabled unit and an enabled sibling, for the
disabled-stub and lazy-loading witnesses. -/
def dirOff : Dir := .mk "off" (some .ecommand) (some metaDisabledVisible) []

def dirOn : Dir := .mk "on" (some .ecommand) (some (metaSimple "On.")) []

def treeDisabled : Dir := .mk "commands" none none [.mk "grp" none none [dirOff, dirOn]]

def groupsDisabled : List (String × CommandGroupSpec) :=
  (discover_specs (some treeDisabled) defaultMaxDepth).toOption.getD []

/-- Specs with distinct help groups and a hidden entry, for the help
rendering witness: `aaa` (tag "Tools"), `bbb` (default tag), `hid`
(hidden). -/
def metaTagged (s tag : String) : MetaFile :=
  .mapping { helpSummary := some (.ystr s), shortHelp := none, hidden := none,
             enabled := none, helpGroup := some tag }

def metaHiddenTrue (s : String) : MetaFile :=
  .mapping { helpSummary := some (.ystr s), shortHelp := none,
             hidden := some (.ybool true), enabled := none, helpGroup := none }

def treeHelp : Dir :=
  .mk "commands" none none
    [.mk "grp" none none
      [.mk "aaa" (some .ecommand) (some (metaTagged "Aaa." "Tools")) [],
       .mk "bbb" (some .ecommand) (some (metaSimple "Bbb.")) [],
       .mk "hid" (some .ecommand) (some (metaHiddenTrue "Hid.")) []]]

def groupsHelp : List (String × CommandGroupSpec) :=
  (discover_specs (some treeHelp) defaultMaxDepth).toOption.getD []

/-- The spec dict of the single group of `treeHelp`. -/
def specsHelp : List (String × CommandSpec) :=
  ((dictGet groupsHelp "grp").map CommandGroupSpec.subcommands).getD []

/-- A fallback spec used only to extract concrete specs from computed
dictionaries in witnesses. -/
def dummySpec : CommandSpec :=
  CommandSpec.mk "" "" .enone "" .notMapping [] .ynull .ynull "" false none

/-- The group spec dict of `treeDisabled`. -/
def specsDisabledGrp : List (String × CommandSpec) :=
  ((dictGet groupsDisabled "grp").map CommandGroupSpec.subcommands).getD []

/-- The discovered spec of the disabled unit `grp/off`. -/
def specOff : CommandSpec := (dictGet specsDisabledGrp "off").getD dummySpec

/-- The record `load_meta` produces for `metaDisabledVisible`. -/
def recDV : MetaRecord :=
  (load_meta "p" metaDisabledVisible).toOption.getD ⟨"", .ynull, .ynull, ""⟩

/-- The record `load_meta` produces for `metaBlankCurrent`. -/
def recBC : MetaRecord :=
  (load_meta "p" metaBlankCurrent).toOption.getD ⟨"", .ynull, .ynull, ""⟩

/-- A mapping carrying both help keys, the current one non-empty. -/
def metaBothKeys : MetaFile :=
  .mapping { helpSummary := some (.ystr "new text"), shortHelp := some (.ystr "old text"),
             hidden := none, enabled := none, helpGroup := none }

/-- The record `load_meta` produces for `metaBothKeys`. -/
def recBoth : MetaRecord :=
  (load_meta "p" metaBothKeys).toOption.getD ⟨"", .ynull, .ynull, ""⟩

/-- The `is_group` classification invariant of claim C4. -/
def isGroupIff (s : CommandSpec) : Prop :=
  s.is_group = true ↔ ∃ l, s.subcommands = some l ∧ l ≠ []

/-- Discovery output for `discover_specs (some treeAlpha) 0`. -/
def groupsAlpha0 : List (String × CommandGroupSpec) :=
  (discover_specs (some treeAlpha) 0).toOption.getD []

/-- A tree whose single top-level group is itself disabled. -/
def treeGrpOff : Dir :=
  .mk "commands" none none [.mk "badgrp" (some .egroup) (some metaDisabledVisible) [dirOn]]

def groupsGrpOff : List (String × CommandGroupSpec) :=
  (discover_specs (some treeGrpOff) defaultMaxDepth).toOption.getD []

/-- The discovered group spec of the disabled group `badgrp`. -/
def gsOff : CommandGroupSpec :=
  (dictGet groupsGrpOff "badgrp").getD ⟨none, none, "", [], .ynull, .ynull, ""⟩

/-- Discovery output for `treeCollide`. -/
def gsCollide : List (String × CommandGroupSpec) :=
  (discover_specs (some treeCollide) defaultMaxDepth).toOption.getD []

/-- The discovered group spec of `grp` in `treeCollide`. -/
def gspCollide : CommandGroupSpec :=
  (dictGet gsCollide "grp").getD ⟨none, none, "", [], .ynull, .ynull, ""⟩

/-- Discovery output for `treeCollide2`. -/
def gsCollide2 : List (String × CommandGroupSpec) :=
  (discover_specs (some treeCollide2) defaultMaxDepth).toOption.getD []

/-- The invariant `groups_wf` establishes for the top-level dict. -/
def GroupsWF (gspecs : List (String × CommandGroupSpec)) : Prop :=
  ∀ p ∈ gspecs, _safe_name p.2.imp_command = p.1 ∧
    ∀ q ∈ p.2.subcommands, SpecWF [p.1] q.1 q.2

-- ===================================================================
-- THEOREMS
-- ===================================================================

/-! ## String containment lemmas -/

theorem strData_append (a b : String) : (a ++ b).data = a.data ++ b.data := by
  cases a
  cases b
  rfl

theorem swc_self_append (p t : List Char) : startsWithChars p (p ++ t) = true := by
  induction p with
  | nil => rfl
  | cons c cs ih => simp [startsWithChars, ih]

theorem infixChars_nil (l : List Char) : infixChars [] l = true := by
  cases l with
  | nil => rfl
  | cons c t => simp [infixChars, startsWithChars]

theorem infixChars_self_append (p t : List Char) : infixChars p (p ++ t) = true := by
  cases p with
  | nil => exact infixChars_nil t
  | cons c cs =>
    simp only [List.cons_append, infixChars, Bool.or_eq_true]
    exact Or.inl (swc_self_append (c :: cs) t)

theorem infixChars_cons (sub : List Char) (c : Char) (l : List Char)
    (h : infixChars sub l = true) : infixChars sub (c :: l) = true := by
  simp [infixChars, h]

theorem infixChars_append_left (sub a l : List Char)
    (h : infixChars sub l = true) : infixChars sub (a ++ l) = true := by
  induction a with
  | nil => exact h
  | cons c cs ih => exact infixChars_cons sub c (cs ++ l) ih

theorem swc_append_right (p l b : List Char)
    (h : startsWithChars p l = true) : startsWithChars p (l ++ b) = true := by
  induction p generalizing l with
  | nil => rfl
  | cons c cs ih =>
    cases l with
    | nil => simp [startsWithChars] at h
    | cons d ds =>
      simp only [startsWithChars, Bool.and_eq_true] at h ⊢
      exact ⟨h.1, ih ds h.2⟩

theorem infixChars_append_right (sub l b : List Char)
    (h : infixChars sub l = true) : infixChars sub (l ++ b) = true := by
  induction l with
  | nil =>
    simp only [infixChars, List.isEmpty_iff] at h
    subst h
    exact infixChars_nil b
  | cons c t ih =>
    simp only [infixChars, Bool.or_eq_true] at h
    rcases h with h | h
    · have := swc_append_right sub (c :: t) b h
      cases sub with
      | nil => exact infixChars_nil ((c :: t) ++ b)
      | cons s ss =>
        simp only [List.cons_append, infixChars, Bool.or_eq_true]
        exact Or.inl this
    · exact infixChars_cons sub c (t ++ b) (ih h)

theorem strContains_self (s : String) : strContains s s = true := by
  have := infixChars_self_append s.data []
  simpa [strContains] using this

theorem strContains_app_left (a b sub : String)
    (h : strContains b sub = true) : strContains (a ++ b) sub = true := by
  simp only [strContains, strData_append]
  exact infixChars_append_left _ _ _ h

theorem strContains_app_right (a b sub : String)
    (h : strContains a sub = true) : strContains (a ++ b) sub = true := by
  simp only [strContains, strData_append]
  exact infixChars_append_right _ _ _ h

/-! ## Claim C10 -/

/-- C10: `discover_specs` on a commands root that does not exist returns an
empty mapping of groups and raises no error. -/
theorem c10_missing_root_dir (max_depth : Nat) :
    discover_specs none max_depth = .ok [] := rfl

/-! ## Metadata loader lemmas -/

theorem load_meta_mapping_ok {p : String} {m : MetaMapping} {r : MetaRecord}
    (h : load_meta p (.mapping m) = .ok r) :
    ∃ s, pyOr m.helpSummary m.shortHelp = some (.ystr s) ∧ pyBlank s = false ∧
      r = { helpSummary := s,
            hidden := if (m.enabled.getD (.ybool true)).truthy = false then .ybool true
                      else m.hidden.getD (.ybool false),
            enabled := m.enabled.getD (.ybool true),
            helpGroup := m.helpGroup.getD "Commands" } := by
  simp only [load_meta, load_meta_core] at h
  rcases hpy : pyOr m.helpSummary m.shortHelp with _ | v
  · rw [hpy] at h
    simp [Except.mapError] at h
  · cases v with
    | ystr s =>
      rw [hpy] at h
      rcases hb : pyBlank s with _ | _
      · simp only [hb, Bool.false_eq_true, if_false, Except.mapError, Except.ok.injEq] at h
        exact ⟨s, rfl, hb, h.symm⟩
      · simp [hb, Except.mapError] at h
    | ybool b =>
      rw [hpy] at h
      simp [Except.mapError] at h
    | ynull =>
      rw [hpy] at h
      simp [Except.mapError] at h

theorem load_group_meta_mapping_ok {p : String} {m : MetaMapping} {r : MetaRecord}
    (h : load_group_meta p (some (.mapping m)) = .ok (some r)) :
    ∃ s, pyOr m.helpSummary m.shortHelp = some (.ystr s) ∧ pyBlank s = false ∧
      r = { helpSummary := s,
            hidden := if (m.enabled.getD (.ybool true)).truthy = false then .ybool true
                      else m.hidden.getD (.ybool false),
            enabled := m.enabled.getD (.ybool true),
            helpGroup := m.helpGroup.getD "Commands" } := by
  simp only [load_group_meta] at h
  rcases hpy : pyOr m.helpSummary m.shortHelp with _ | v
  · rw [hpy] at h
    simp at h
  · cases v with
    | ystr s =>
      rw [hpy] at h
      rcases hb : pyBlank s with _ | _
      · simp only [hb, Bool.false_eq_true, if_false, Except.ok.injEq, Option.some.injEq] at h
        exact ⟨s, rfl, hb, h.symm⟩
      · simp [hb] at h
    | ybool b =>
      rw [hpy] at h
      simp at h
    | ynull =>
      rw [hpy] at h
      simp at h

theorem normalized_forces_hidden {m : MetaMapping} {r : MetaRecord}
    (hr : r = { helpSummary := s,
                hidden := if (m.enabled.getD (.ybool true)).truthy = false then .ybool true
                          else m.hidden.getD (.ybool false),
                enabled := m.enabled.getD (.ybool true),
                helpGroup := m.helpGroup.getD "Commands" })
    (he : r.enabled.truthy = false) : r.hidden = .ybool true := by
  subst hr
  simp only [MetaRecord.enabled] at he
  simp [MetaRecord.hidden, he]

/-! ## Claim C3 -/

/-- C3: for every descriptor the metadata loader accepts (unit form and
group form), a normalized record with falsy `enabled` has `hidden = true`
(even when the raw file said `hidden: false`, since the quantification
covers every raw `hidden` value), and absent fields get their in-memory
defaults: `hidden=false` (when enabled), `enabled=true`,
`helpGroup="Commands"`. -/
theorem c3_enablement_forces_hidden :
    (∀ (p : String) (m : MetaMapping) (r : MetaRecord),
      load_meta p (.mapping m) = .ok r →
        (r.enabled.truthy = false → r.hidden = .ybool true) ∧
        (m.hidden = none → r.enabled.truthy = true → r.hidden = .ybool false) ∧
        (m.enabled = none → r.enabled = .ybool true) ∧
        (m.helpGroup = none → r.helpGroup = "Commands")) ∧
    (∀ (p : String) (m : MetaMapping) (r : MetaRecord),
      load_group_meta p (some (.mapping m)) = .ok (some r) →
        (r.enabled.truthy = false → r.hidden = .ybool true) ∧
        (m.hidden = none → r.enabled.truthy = true → r.hidden = .ybool false)) := by
  constructor
  · intro p m r h
    obtain ⟨s, _, _, hr⟩ := load_meta_mapping_ok h
    refine ⟨fun he => normalized_forces_hidden hr he, ?_, ?_, ?_⟩
    · intro hh he
      subst hr
      simp only [MetaRecord.enabled] at he
      simp [MetaRecord.hidden, he, hh]
    · intro hen
      subst hr
      simp [MetaRecord.enabled, hen]
    · intro hg
      subst hr
      simp [MetaRecord.helpGroup, hg]
  · intro p m r h
    obtain ⟨s, _, _, hr⟩ := load_group_meta_mapping_ok h
    refine ⟨fun he => normalized_forces_hidden hr he, ?_⟩
    intro hh he
    subst hr
    simp only [MetaRecord.enabled] at he
    simp [MetaRecord.hidden, he, hh]

/-- C3 witness: the descriptor `{HelpSummary: "Off.", hidden: false,
enabled: false}` normalizes with `hidden = true`. -/
theorem c3_witness :
    recDV.enabled.truthy = false ∧ recDV.hidden = .ybool true :=
  ⟨by decide,
    (c3_enablement_forces_hidden.1 "p"
      ⟨some (.ystr "Off."), none, some (.ybool false), some (.ybool false), none⟩
      recDV rfl).1 (by decide)⟩

/-! ## Claim C6 (corrected) -/

/-- C6 counterexample: in `metaBlankCurrent` both help keys are present —
the current key `HelpSummary` holds the (string) value `""` and the legacy
key `shortHelp` holds `"legacy text"` — yet the loader accepts the file
and normalizes the summary to the legacy key's value, not the current
key's value. -/
theorem c6_counterexample :
    metaBlankCurrent =
      .mapping ⟨some (.ystr ""), some (.ystr "legacy text"), none, none, none⟩ ∧
    load_meta "p" metaBlankCurrent = .ok recBC ∧
    recBC.helpSummary = "legacy text" ∧ ¬ recBC.helpSummary = "" :=
  ⟨rfl, rfl, rfl, by decide⟩

/-- C6 (amended): the current key wins only when its value is truthy (a
non-empty string); when the current key is absent or holds a falsy value
(empty string, `false`, `null`), the legacy key's value is used.  In
particular, when only one of the two keys carries the summary the loader
accepts, that one is used.  Both loader entry points behave alike. -/
theorem c6_alias_takes_truthy_current :
    (∀ (p : String) (m : MetaMapping) (r : MetaRecord),
      load_meta p (.mapping m) = .ok r →
        (∃ s, m.helpSummary = some (.ystr s) ∧ YVal.truthy (.ystr s) = true ∧
          r.helpSummary = s) ∨
        ((m.helpSummary = none ∨ ∃ v, m.helpSummary = some v ∧ v.truthy = false) ∧
          ∃ s, m.shortHelp = some (.ystr s) ∧ r.helpSummary = s)) ∧
    (∀ (p : String) (m : MetaMapping) (r : MetaRecord),
      load_group_meta p (some (.mapping m)) = .ok (some r) →
        (∃ s, m.helpSummary = some (.ystr s) ∧ YVal.truthy (.ystr s) = true ∧
          r.helpSummary = s) ∨
        ((m.helpSummary = none ∨ ∃ v, m.helpSummary = some v ∧ v.truthy = false) ∧
          ∃ s, m.shortHelp = some (.ystr s) ∧ r.helpSummary = s)) := by
  have main : ∀ (m : MetaMapping) (r : MetaRecord) (s : String),
      pyOr m.helpSummary m.shortHelp = some (.ystr s) → r.helpSummary = s →
        (∃ s1, m.helpSummary = some (.ystr s1) ∧ YVal.truthy (.ystr s1) = true ∧
          r.helpSummary = s1) ∨
        ((m.helpSummary = none ∨ ∃ v, m.helpSummary = some v ∧ v.truthy = false) ∧
          ∃ s1, m.shortHelp = some (.ystr s1) ∧ r.helpSummary = s1) := by
    intro m r s hpy hrs
    rcases hhs : m.helpSummary with _ | v
    · rw [hhs] at hpy
      simp only [pyOr] at hpy
      exact Or.inr ⟨Or.inl rfl, s, hpy, hrs⟩
    · rw [hhs] at hpy
      simp only [pyOr] at hpy
      rcases ht : v.truthy with _ | _
      · rw [ht] at hpy
        simp only [Bool.false_eq_true, if_false] at hpy
        exact Or.inr ⟨Or.inr ⟨v, rfl, ht⟩, s, hpy, hrs⟩
      · rw [ht] at hpy
        simp only [if_true] at hpy
        injection hpy with hv
        subst hv
        refine Or.inl ⟨s, rfl, ?_, hrs⟩
        exact ht
  constructor
  · intro p m r h
    obtain ⟨s, hpy, _, hr⟩ := load_meta_mapping_ok h
    exact main m r s hpy (by rw [hr])
  · intro p m r h
    obtain ⟨s, hpy, _, hr⟩ := load_group_meta_mapping_ok h
    exact main m r s hpy (by rw [hr])

/-- C6 witness: with both keys present and the current key non-empty
(`metaBothKeys`), the current key's value wins. -/
theorem c6_witness :
    (∃ s1, (some (YVal.ystr "new text") : Option YVal) = some (.ystr s1) ∧
      YVal.truthy (.ystr s1) = true ∧ recBoth.helpSummary = s1) ∨
    (((some (YVal.ystr "new text") : Option YVal) = none ∨
      ∃ v, (some (YVal.ystr "new text") : Option YVal) = some v ∧ v.truthy = false) ∧
      ∃ s1, (some (YVal.ystr "old text") : Option YVal) = some (.ystr s1) ∧
        recBoth.helpSummary = s1) :=
  c6_alias_takes_truthy_current.1 "p"
    ⟨some (.ystr "new text"), some (.ystr "old text"), none, none, none⟩ recBoth rfl

/-! ## Claim C7 -/

theorem disabledMsg_contains (ip : List String) :
    strContains (disabledMsg ip) "is disabled" = true ∧
    strContains (disabledMsg ip) (joinWith "." ip) = true := by
  constructor
  · exact strContains_app_left _ _ _ (by decide)
  · exact strContains_app_right _ _ _
      (strContains_app_right _ _ _ (strContains_app_left _ _ _ (strContains_self _)))

theorem groupDisabledMsg_contains (name : String) :
    strContains ("Command group " ++ sglq ++ name ++ sglq ++ " is disabled.")
      "is disabled" = true ∧
    strContains ("Command group " ++ sglq ++ name ++ sglq ++ " is disabled.")
      name = true := by
  constructor
  · exact strContains_app_left _ _ _ (by decide)
  · exact strContains_app_right _ _ _
      (strContains_app_right _ _ _ (strContains_app_left _ _ _ (strContains_self _)))

/-- C7: a disabled unit short-circuits resolution.  Loading a disabled
spec executes no entry module and yields a hidden stub; invoking the stub
fails with exit status 1 and a message containing "is disabled" and the
unit's dotted import path; a disabled group's stub exposes no children.
The same holds for a disabled top-level group resolved by the root
dispatcher (whose message names the group by its display name, the entire
dotted path at that level). -/
theorem c7_disabled_short_circuit :
    (∀ spec : CommandSpec, spec.enabled.truthy = false →
      (load_click_command spec).1 = [] ∧
      ∃ cc, (load_click_command spec).2 = .ok cc ∧
        ccHidden cc = .ybool true ∧
        CC.invoke cc = .fails 1 (disabledMsg spec.imp_path) ∧
        strContains (disabledMsg spec.imp_path) "is disabled" = true ∧
        strContains (disabledMsg spec.imp_path) (joinWith "." spec.imp_path) = true ∧
        (∀ s, ccGet cc s = none)) ∧
    (∀ (gspecs : List (String × CommandGroupSpec)) (name : String) (gs : CommandGroupSpec),
      dictGet gspecs name = some gs → gs.enabled.truthy = false →
      (root_get_command gspecs name).1 = [] ∧
      ∃ msg, (root_get_command gspecs name).2 = some (.ok (.stubGroup name msg)) ∧
        CC.invoke (.stubGroup name msg) = .fails 1 msg ∧
        strContains msg "is disabled" = true ∧
        strContains msg name = true ∧
        (∀ s, ccGet (.stubGroup name msg) s = none)) := by
  constructor
  · intro spec h
    rcases hg : spec.is_group with _ | _
    · refine ⟨by simp [load_click_command, h, hg], .stubCmd spec.name (disabledMsg spec.imp_path),
        by simp [load_click_command, h, hg], rfl, rfl,
        (disabledMsg_contains spec.imp_path).1, (disabledMsg_contains spec.imp_path).2,
        fun s => rfl⟩
    · refine ⟨by simp [load_click_command, h, hg], .stubGroup spec.name (disabledMsg spec.imp_path),
        by simp [load_click_command, h, hg], rfl, rfl,
        (disabledMsg_contains spec.imp_path).1, (disabledMsg_contains spec.imp_path).2,
        fun s => by simp [ccGet, dictGet]⟩
  · intro gspecs name gs hget h
    refine ⟨by simp [root_get_command, hget, h],
      "Command group " ++ sglq ++ name ++ sglq ++ " is disabled.",
      by simp [root_get_command, hget, h], rfl,
      (groupDisabledMsg_contains name).1, (groupDisabledMsg_contains name).2,
      fun s => by simp [ccGet, dictGet]⟩

/-- C7 witness: the concrete disabled unit `grp/off` of `treeDisabled` and
the concrete disabled group `badgrp` of `treeGrpOff`. -/
theorem c7_witness :
    ((load_click_command specOff).1 = [] ∧
      ∃ cc, (load_click_command specOff).2 = .ok cc ∧
        ccHidden cc = .ybool true ∧
        CC.invoke cc = .fails 1 (disabledMsg specOff.imp_path) ∧
        strContains (disabledMsg specOff.imp_path) "is disabled" = true ∧
        strContains (disabledMsg specOff.imp_path) (joinWith "." specOff.imp_path) = true ∧
        (∀ s, ccGet cc s = none)) ∧
    ((root_get_command groupsGrpOff "badgrp").1 = [] ∧
      ∃ msg, (root_get_command groupsGrpOff "badgrp").2 =
          some (.ok (.stubGroup "badgrp" msg)) ∧
        CC.invoke (.stubGroup "badgrp" msg) = .fails 1 msg ∧
        strContains msg "is disabled" = true ∧
        strContains msg "badgrp" = true ∧
        (∀ s, ccGet (.stubGroup "badgrp" msg) s = none)) :=
  ⟨c7_disabled_short_circuit.1 specOff (by decide),
    c7_disabled_short_circuit.2 groupsGrpOff "badgrp" gsOff rfl (by decide)⟩

/-! ## Dictionary lemmas -/

theorem dictInsert_mem {α : Type} {d : List (String × α)} {k : String} {v : α}
    {p : String × α} (h : p ∈ dictInsert d k v) : p = (k, v) ∨ p ∈ d := by
  induction d with
  | nil => simpa [dictInsert] using h
  | cons q rest ih =>
    obtain ⟨k1, v1⟩ := q
    simp only [dictInsert] at h
    by_cases hk : k1 = k
    · simp only [hk, if_true] at h
      rcases List.mem_cons.mp h with h | h
      · exact Or.inl h
      · exact Or.inr (List.mem_cons_of_mem _ h)
    · simp only [hk, if_false] at h
      rcases List.mem_cons.mp h with h | h
      · exact Or.inr (h ▸ List.mem_cons_self _ _)
      · rcases ih h with h | h
        · exact Or.inl h
        · exact Or.inr (List.mem_cons_of_mem _ h)

theorem dictGet_insert_self {α : Type} (d : List (String × α)) (k : String) (v : α) :
    dictGet (dictInsert d k v) k = some v := by
  induction d with
  | nil => simp [dictInsert, dictGet]
  | cons q rest ih =>
    obtain ⟨k1, v1⟩ := q
    by_cases hk : k1 = k
    · simp [dictInsert, hk, dictGet]
    · simp [dictInsert, hk, dictGet, ih]

theorem dictGet_insert_other {α : Type} (d : List (String × α)) (k k2 : String) (v : α)
    (h : k2 ≠ k) : dictGet (dictInsert d k v) k2 = dictGet d k2 := by
  induction d with
  | nil => simp [dictInsert, dictGet, Ne.symm h]
  | cons q rest ih =>
    obtain ⟨k1, v1⟩ := q
    by_cases hk : k1 = k
    · subst hk
      simp [dictInsert, dictGet, Ne.symm h]
    · simp only [dictInsert, hk, if_false, dictGet]
      by_cases hk2 : k1 = k2
      · simp [hk2]
      · simp [hk2, ih]

theorem mem_of_dictGet {α : Type} {d : List (String × α)} {k : String} {v : α}
    (h : dictGet d k = some v) : (k, v) ∈ d := by
  induction d with
  | nil => simp [dictGet] at h
  | cons q rest ih =>
    obtain ⟨k1, v1⟩ := q
    simp only [dictGet] at h
    by_cases hk : k1 = k
    · simp only [hk, if_true, Option.some.injEq] at h
      subst h
      subst hk
      exact List.mem_cons_self _ _
    · simp only [hk, if_false] at h
      exact List.mem_cons_of_mem _ (ih h)

theorem dictInsert_keys {α : Type} (d : List (String × α)) (k : String) (v : α) :
    (dictInsert d k v).map Prod.fst = d.map Prod.fst ∨
      (dictInsert d k v).map Prod.fst = d.map Prod.fst ++ [k] := by
  induction d with
  | nil => simp [dictInsert]
  | cons q rest ih =>
    obtain ⟨k1, v1⟩ := q
    by_cases hk : k1 = k
    · simp [dictInsert, hk]
    · rcases ih with h | h
      · exact Or.inl (by simp [dictInsert, hk, h])
      · exact Or.inr (by simp [dictInsert, hk, h])

theorem dictInsert_keys_of_mem {α : Type} {d : List (String × α)} {k : String} (v : α)
    (h : k ∈ d.map Prod.fst) :
    (dictInsert d k v).map Prod.fst = d.map Prod.fst := by
  induction d with
  | nil => simp at h
  | cons q rest ih =>
    obtain ⟨k1, v1⟩ := q
    by_cases hk : k1 = k
    · simp [dictInsert, hk]
    · simp only [List.map_cons, List.mem_cons] at h
      rcases h with h | h
    
      · exact absurd h.symm hk
      · simp [dictInsert, hk, ih h]

theorem dictInsert_keys_nodup {α : Type} {d : List (String × α)} (k : String) (v : α)
    (h : (d.map Prod.fst).Nodup) : ((dictInsert d k v).map Prod.fst).Nodup := by
  rcases dictInsert_keys d k v with hk | hk
  · rw [hk]; exact h
  · rw [hk]
    by_cases hm : k ∈ d.map Prod.fst
    · have h2 := dictInsert_keys_of_mem v hm
      rw [h2] at hk
      have hlen : (d.map Prod.fst).length = ((d.map Prod.fst) ++ [k]).length := by
        rw [← hk]
      simp at hlen
    · simp [List.nodup_append, h, hm]

theorem dictGet_of_mem_nodup {α : Type} {d : List (String × α)} {k : String} {v : α}
    (h : (k, v) ∈ d) (hnd : (d.map Prod.fst).Nodup) : dictGet d k = some v := by
  induction d with
  | nil => simp at h
  | cons q rest ih =>
    obtain ⟨k1, v1⟩ := q
    rcases List.mem_cons.mp h with h | h
    · obtain ⟨h1, h2⟩ := Prod.mk.injEq .. ▸ h.symm
      simp [dictGet, h1.symm, h2]
    · have hk : k1 ≠ k := by
        intro hh
        subst hh
        have : k1 ∈ rest.map Prod.fst := List.mem_map.mpr ⟨(k1, v), h, rfl⟩
        simp [List.nodup_cons, this] at hnd
      simp only [dictGet, hk, if_false]
      exact ih h (by simp [List.nodup_cons] at hnd; exact hnd.2)

/-! ## Claim C5 -/

theorem discoverGroups_zero_subs (rn : String) (dirs : List Dir) :
    ∀ (specs : List (String × CommandGroupSpec)) (errs : List String),
      (∀ p ∈ specs, p.2.subcommands = []) →
      ∀ p ∈ (discoverGroups 0 rn dirs specs errs).1, p.2.subcommands = [] := by
  induction dirs with
  | nil =>
    intro specs errs h p hp
    exact h p hp
  | cons d rest ih =>
    intro specs errs h p hp
    rcases hd : hiddenName d.name with _ | _
    · simp only [discoverGroups, hd, Bool.false_eq_true, if_false] at hp
      refine ih _ _ ?_ p hp
      intro q hq
      split at hq
      · exact h q hq
      · rcases dictInsert_mem hq with hq | hq
        · subst hq
          simp [_discover_nested_commands, discoverLevel, mkGroupSpec]
        · exact h q hq
    · simp only [discoverGroups, hd, if_true] at hp
      exact ih _ _ h p hp

theorem chain_errors_silent :
    ∀ (f k : Nat), f ≤ k → ∀ (ip : List String) (fs : String) (errs : List String),
      (discoverLevel f [chainDir k] ip fs errs).2 = errs := by
  intro f
  induction f with
  | zero => intro k _ ip fs errs; rfl
  | succ f ih =>
    intro k hk ip fs errs
    cases k with
    | zero => omega
    | succ k1 =>
      have hlm : load_meta (fs ++ "/" ++ "u" ++ "/meta.yaml") (metaSimple "Link.") =
          .ok ⟨"Link.", .ybool false, .ybool true, "Commands"⟩ := rfl
      have hhn : hiddenName "u" = false := by decide
      simp only [discoverLevel, chainDir, discoverFold, Dir.name, Dir.entry, Dir.meta,
        Dir.subs, hhn, Bool.false_eq_true, if_false, hlm]
      exact ih k1 (by omega) _ _ errs

/-- C5: the depth cap is a silent soft cap.  (1) Once
`current_depth >= max_depth` the recursive scan returns an empty mapping
and leaves the error accumulator untouched.  (2) Depth counting starts at
0 at the root's immediate children: with `max_depth = 0` even they are
beyond the cap, so every discovered group has an empty nested mapping.
(3) A tree nested deeper than the cap — `chainRoot n` has a unit chain of
length `n` ending in a structurally broken directory — discovers without
any error whenever the broken depth `n` is at or beyond `max_depth`:
deeper structure is truncated, not reported. -/
theorem c5_depth_cap :
    (∀ (base : Dir) (ip : List String) (fs : String) (cd md : Nat) (errs : List String),
      md ≤ cd → _discover_nested_commands base ip fs cd md errs = ([], errs)) ∧
    (∀ (t : Dir) (gs : List (String × CommandGroupSpec)),
      discover_specs (some t) 0 = .ok gs → ∀ p ∈ gs, p.2.subcommands = []) ∧
    (∀ (n md : Nat), md ≤ n →
      (discover_specs (some (chainRoot n)) md).isOk = true) := by
  refine ⟨?_, ?_, ?_⟩
  · intro base ip fs cd md errs h
    have : md - cd = 0 := by omega
    simp [_discover_nested_commands, this, discoverLevel]
  · intro t gs h
    simp only [discover_specs] at h
    rcases he : (discoverGroups 0 t.name (sortDirs t.subs) [] []).2 with _ | _
    · rw [he] at h
      simp only [List.isEmpty_nil, if_true, Except.ok.injEq] at h
      subst h
      exact discoverGroups_zero_subs t.name (sortDirs t.subs) [] [] (by simp)
    · rw [he] at h
      simp at h
  · intro n md h
    have hg : hiddenName "g" = false := by decide
    have hgm : load_group_meta ("commands" ++ "/" ++ "g" ++ "/meta.yaml")
        (none : Option MetaFile) = .ok none := rfl
    have hsub := chain_errors_silent md n h ["g"] "commands/g" []
    simp only [discover_specs, chainRoot, sortDirs, sortBy, insertBy, Dir.subs, Dir.name,
      discoverGroups, hg, Bool.false_eq_true, if_false, hgm, Dir.entry, Dir.meta,
      _discover_nested_commands, Nat.sub_zero]
    simp [hsub, Except.isOk, Except.toBool]

/-- C5 witness: the cap at `current_depth = max_depth = 5`, discovery of
`treeAlpha` with `max_depth = 0`, and the deep chain `chainRoot 7` under
the default cap 5. -/
theorem c5_witness :
    _discover_nested_commands treeAlpha [] "" 5 5 ["seed"] = ([], ["seed"]) ∧
    (∀ p ∈ groupsAlpha0, p.2.subcommands = []) ∧
    (discover_specs (some (chainRoot 7)) 5).isOk = true :=
  ⟨c5_depth_cap.1 treeAlpha [] "" 5 5 ["seed"] (by decide),
    c5_depth_cap.2.1 treeAlpha groupsAlpha0 rfl,
    c5_depth_cap.2.2 7 5 (by decide)⟩

/-! ## More string containment infrastructure -/

theorem strAppend_assoc (a b c : String) : (a ++ b) ++ c = a ++ (b ++ c) := by
  apply String.ext
  simp [strData_append, List.append_assoc]

theorem swc_decompose {p l : List Char} (h : startsWithChars p l = true) :
    ∃ y, l = p ++ y := by
  induction p generalizing l with
  | nil => exact ⟨l, rfl⟩
  | cons c cs ih =>
    cases l with
    | nil => simp [startsWithChars] at h
    | cons d ds =>
      simp only [startsWithChars, Bool.and_eq_true, decide_eq_true_eq] at h
      obtain ⟨y, hy⟩ := ih h.2
      exact ⟨y, by simp [h.1, hy]⟩

theorem infixChars_decompose {sub l : List Char} (h : infixChars sub l = true) :
    ∃ x y, l = x ++ sub ++ y := by
  induction l with
  | nil =>
    simp only [infixChars, List.isEmpty_iff] at h
    exact ⟨[], [], by simp [h]⟩
  | cons c t ih =>
    simp only [infixChars, Bool.or_eq_true] at h
    rcases h with h | h
    · obtain ⟨y, hy⟩ := swc_decompose h
      exact ⟨[], y, by simp [hy]⟩
    · obtain ⟨x, y, hxy⟩ := ih h
      exact ⟨c :: x, y, by simp [hxy]⟩

theorem infixChars_of_decompose (sub x y : List Char) :
    infixChars sub (x ++ sub ++ y) = true := by
  have h1 : infixChars sub (sub ++ y) = true := infixChars_self_append sub y
  have := infixChars_append_left sub x (sub ++ y) h1
  simpa [List.append_assoc] using this

theorem infixChars_trans {a b c : List Char} (h1 : infixChars a b = true)
    (h2 : infixChars b c = true) : infixChars a c = true := by
  obtain ⟨x, y, hb⟩ := infixChars_decompose h1
  obtain ⟨u, v, hc⟩ := infixChars_decompose h2
  subst hb
  have : c = (u ++ x) ++ a ++ (y ++ v) := by
    rw [hc]
    simp [List.append_assoc]
  rw [this]
  exact infixChars_of_decompose a (u ++ x) (y ++ v)

theorem strContains_trans {a b c : String} (h1 : strContains b a = true)
    (h2 : strContains c b = true) : strContains c a = true :=
  infixChars_trans h1 h2

theorem strContains_mid (pre a b : String) :
    strContains ((pre ++ a) ++ b) (a ++ b) = true := by
  rw [strAppend_assoc]
  exact strContains_app_left _ _ _ (strContains_self _)

/-! ## `joinWith` lemmas -/

theorem joinWith_snoc (sep : String) (l : List String) (x : String) (h : l ≠ []) :
    joinWith sep (l ++ [x]) = (joinWith sep l ++ sep) ++ x := by
  induction l with
  | nil => exact absurd rfl h
  | cons a rest ih =>
    cases rest with
    | nil => simp [joinWith]
    | cons b rest2 =>
      have hih := ih (by simp)
      have hstep : joinWith sep ((a :: b :: rest2) ++ [x]) =
          a ++ sep ++ joinWith sep ((b :: rest2) ++ [x]) := rfl
      rw [hstep, hih]
      simp only [joinWith]
      simp [strAppend_assoc]

theorem joined_errors_contain (sep head : String) :
    ∀ (errs : List String) (e : String), e ∈ errs →
      strContains (joinWith sep (errs.map (fun x => head ++ x))) e = true := by
  intro errs
  induction errs with
  | nil => intro e he; simp at he
  | cons a rest ih =>
    intro e he
    rcases List.mem_cons.mp he with he | he
    · subst he
      cases rest with
      | nil => exact strContains_app_left _ _ _ (strContains_self _)
      | cons b rest2 =>
        simp only [List.map_cons, joinWith]
        exact strContains_app_right _ _ _ (strContains_app_right _ _ _
          (strContains_app_left _ _ _ (strContains_self _)))
    · cases rest with
      | nil => simp at he
      | cons b rest2 =>
        simp only [List.map_cons, joinWith]
        have := ih e he
        simp only [List.map_cons] at this
        exact strContains_app_left _ _ _ this

/-! ## Error aggregation (claim C2 infrastructure) -/

theorem load_meta_ok_core {p : String} {f : MetaFile} {r : MetaRecord} :
    load_meta p f = .ok r ↔ load_meta_core f = .ok r := by
  cases h : load_meta_core f <;> simp [load_meta, h, Except.mapError]

theorem load_meta_error_core {p : String} {f : MetaFile} {e : String}
    (h : load_meta p f = .error e) :
    ∃ k, load_meta_core f = .error k ∧ e = metaErrMsg p k := by
  cases hc : load_meta_core f with
  | error k =>
    refine ⟨k, rfl, ?_⟩
    rw [load_meta, hc] at h
    simp [Except.mapError] at h
    exact h.symm
  | ok r =>
    rw [load_meta, hc] at h
    simp [Except.mapError] at h

theorem metaErrMsg_contains (p : String) (k : MetaErrKind) :
    strContains (metaErrMsg p k) p = true := by
  cases k with
  | parse e =>
    exact strContains_app_right _ _ _ (strContains_app_right _ _ _
      (strContains_app_left _ _ _ (strContains_self _)))
  | notMapping =>
    exact strContains_app_right _ _ _ (strContains_app_left _ _ _ (strContains_self _))
  | badSummary =>
    exact strContains_app_right _ _ _ (strContains_app_left _ _ _ (strContains_self _))

theorem metaPath_contains_rel (ip : List String) (n pre : String) (hip : ip ≠ []) :
    strContains ((pre ++ joinWith "/" ip) ++ "/" ++ n ++ "/meta.yaml")
      (joinWith "/" (ip ++ [n])) = true := by
  rw [joinWith_snoc _ _ _ hip]
  apply strContains_app_right
  have h1 : ((pre ++ joinWith "/" ip) ++ "/") ++ n =
      (pre ++ (joinWith "/" ip ++ "/")) ++ n := by
    rw [strAppend_assoc pre (joinWith "/" ip) "/"]
  rw [h1]
  exact strContains_mid pre _ n

theorem missingMsg_contains (ip : List String) (n : String) (eOpt : Option ExportObj)
    (mOpt : Option MetaFile) :
    strContains (missingMsg ip n eOpt mOpt) (joinWith "/" (ip ++ [n])) = true :=
  strContains_app_right _ _ _ (strContains_app_right _ _ _ (strContains_self _))

theorem fsStep_rel (ip : List String) (fs pre n : String)
    (hfs : fs = pre ++ joinWith "/" ip) (hip : ip ≠ []) :
    fs ++ "/" ++ n = pre ++ joinWith "/" (ip ++ [n]) := by
  subst hfs
  rw [joinWith_snoc _ _ _ hip]
  rw [strAppend_assoc pre (joinWith "/" ip) "/",
    strAppend_assoc pre (joinWith "/" ip ++ "/") n]

theorem errs_fold
    (recurse : List Dir → List String → String → List String →
      List (String × CommandSpec) × List String)
    (brokenRec : List Dir → List String → List String)
    (hrec : ∀ (dirs2 : List Dir) (ip2 : List String) (fs2 : String) (errs2 : List String),
      (∃ pre, fs2 = pre ++ joinWith "/" ip2) → ip2 ≠ [] →
      ∃ delta, (recurse dirs2 ip2 fs2 errs2).2 = errs2 ++ delta ∧
        ∀ p ∈ brokenRec dirs2 ip2, ∃ e ∈ delta, strContains e p = true) :
    ∀ (dirs : List Dir) (ip : List String) (fs : String)
      (specs : List (String × CommandSpec)) (errs : List String),
      (∃ pre, fs = pre ++ joinWith "/" ip) → ip ≠ [] →
      ∃ delta, (discoverFold recurse dirs ip fs specs errs).2 = errs ++ delta ∧
        ∀ p ∈ brokenFold brokenRec dirs ip, ∃ e ∈ delta, strContains e p = true := by
  intro dirs
  induction dirs with
  | nil =>
    intro ip fs specs errs hfs hip
    exact ⟨[], by simp [discoverFold], by simp [brokenFold]⟩
  | cons d rest ih =>
    intro ip fs specs errs hfs hip
    obtain ⟨pre, hpre⟩ := hfs
    rcases hh : hiddenName d.name with _ | _
    · rcases he : d.entry with _ | eo <;> rcases hm : d.meta with _ | mf
      · -- both missing
        obtain ⟨delta2, h2, hcont2⟩ := ih ip fs specs
          (errs ++ [missingMsg ip d.name none none]) ⟨pre, hpre⟩ hip
        refine ⟨missingMsg ip d.name none none :: delta2, ?_, ?_⟩
        · simp only [discoverFold, hh, Bool.false_eq_true, if_false, he, hm]
          rw [h2, List.append_assoc]
          rfl
        · intro p hp
          simp only [brokenFold, hh, Bool.false_eq_true, if_false, he, hm] at hp
          rcases List.mem_cons.mp hp with hp | hp
          · subst hp
            exact ⟨_, List.mem_cons_self _ _, missingMsg_contains ip d.name _ _⟩
          · obtain ⟨e, hed, hec⟩ := hcont2 p hp
            exact ⟨e, List.mem_cons_of_mem _ hed, hec⟩
      · -- entry missing, meta present
        obtain ⟨delta2, h2, hcont2⟩ := ih ip fs specs
          (errs ++ [missingMsg ip d.name none (some mf)]) ⟨pre, hpre⟩ hip
        refine ⟨missingMsg ip d.name none (some mf) :: delta2, ?_, ?_⟩
        · simp only [discoverFold, hh, Bool.false_eq_true, if_false, he, hm]
          rw [h2, List.append_assoc]
          rfl
        · intro p hp
          simp only [brokenFold, hh, Bool.false_eq_true, if_false, he, hm] at hp
          rcases List.mem_cons.mp hp with hp | hp
          · subst hp
            exact ⟨_, List.mem_cons_self _ _, missingMsg_contains ip d.name _ _⟩
          · obtain ⟨e, hed, hec⟩ := hcont2 p hp
            exact ⟨e, List.mem_cons_of_mem _ hed, hec⟩
      · -- entry present, meta missing
        obtain ⟨delta2, h2, hcont2⟩ := ih ip fs specs
          (errs ++ [missingMsg ip d.name (some eo) none]) ⟨pre, hpre⟩ hip
        refine ⟨missingMsg ip d.name (some eo) none :: delta2, ?_, ?_⟩
        · simp only [discoverFold, hh, Bool.false_eq_true, if_false, he, hm]
          rw [h2, List.append_assoc]
          rfl
        · intro p hp
          simp only [brokenFold, hh, Bool.false_eq_true, if_false, he, hm] at hp
          rcases List.mem_cons.mp hp with hp | hp
          · subst hp
            exact ⟨_, List.mem_cons_self _ _, missingMsg_contains ip d.name _ _⟩
          · obtain ⟨e, hed, hec⟩ := hcont2 p hp
            exact ⟨e, List.mem_cons_of_mem _ hed, hec⟩
      · -- both present: load the descriptor
        rcases hl : load_meta (fs ++ "/" ++ d.name ++ "/meta.yaml") mf with e | meta
        · -- invalid descriptor
          obtain ⟨k, hk, hek⟩ := load_meta_error_core hl
          obtain ⟨delta2, h2, hcont2⟩ := ih ip fs specs (errs ++ [e]) ⟨pre, hpre⟩ hip
          refine ⟨e :: delta2, ?_, ?_⟩
          · simp only [discoverFold, hh, Bool.false_eq_true, if_false, he, hm, hl]
            rw [h2, List.append_assoc]
            rfl
          · intro p hp
            simp only [brokenFold, hh, Bool.false_eq_true, if_false, he, hm, hk] at hp
            rcases List.mem_cons.mp hp with hp | hp
            · subst hp
              refine ⟨e, List.mem_cons_self _ _, ?_⟩
              subst hek
              subst hpre
              exact strContains_trans (metaPath_contains_rel ip d.name pre hip)
                (metaErrMsg_contains _ k)
            · obtain ⟨e2, hed, hec⟩ := hcont2 p hp
              exact ⟨e2, List.mem_cons_of_mem _ hed, hec⟩
        · -- valid descriptor: recurse below, then the remaining siblings
          have hrel2 : ∃ pre2, fs ++ "/" ++ d.name =
              pre2 ++ joinWith "/" (ip ++ [d.name]) :=
            ⟨pre, fsStep_rel ip fs pre d.name hpre hip⟩
          obtain ⟨delta1, h1, hcont1⟩ := hrec (sortDirs d.subs) (ip ++ [d.name])
            (fs ++ "/" ++ d.name) errs hrel2 (by simp)
          obtain ⟨delta2, h2, hcont2⟩ := ih ip fs
            (dictInsert specs (_safe_name d.name)
              (mkCommandSpec d eo mf ip fs meta
                (recurse (sortDirs d.subs) (ip ++ [d.name]) (fs ++ "/" ++ d.name) errs).1))
            (recurse (sortDirs d.subs) (ip ++ [d.name]) (fs ++ "/" ++ d.name) errs).2
            ⟨pre, hpre⟩ hip
          refine ⟨delta1 ++ delta2, ?_, ?_⟩
          · simp only [discoverFold, hh, Bool.false_eq_true, if_false, he, hm, hl]
            rw [h2, h1, List.append_assoc]
          · intro p hp
            have hcore : load_meta_core mf = .ok meta := load_meta_ok_core.mp hl
            simp only [brokenFold, hh, Bool.false_eq_true, if_false, he, hm, hcore] at hp
            rcases List.mem_append.mp hp with hp | hp
            · obtain ⟨e, hed, hec⟩ := hcont1 p hp
              exact ⟨e, List.mem_append_left _ hed, hec⟩
            · obtain ⟨e, hed, hec⟩ := hcont2 p hp
              exact ⟨e, List.mem_append_right _ hed, hec⟩
    · -- hidden directory: skipped by both walks
      obtain ⟨delta2, h2, hcont2⟩ := ih ip fs specs errs ⟨pre, hpre⟩ hip
      refine ⟨delta2, ?_, ?_⟩
      · simp only [discoverFold, hh, if_true]
        exact h2
      · intro p hp
        simp only [brokenFold, hh, if_true] at hp
        exact hcont2 p hp

theorem errs_level :
    ∀ (f : Nat) (dirs : List Dir) (ip : List String) (fs : String) (errs : List String),
      (∃ pre, fs = pre ++ joinWith "/" ip) → ip ≠ [] →
      ∃ delta, (discoverLevel f dirs ip fs errs).2 = errs ++ delta ∧
        ∀ p ∈ brokenLevel f dirs ip, ∃ e ∈ delta, strContains e p = true := by
  intro f
  induction f with
  | zero =>
    intro dirs ip fs errs _ _
    exact ⟨[], by simp [discoverLevel], by simp [brokenLevel]⟩
  | succ f ih =>
    intro dirs ip fs errs hfs hip
    exact errs_fold (discoverLevel f) (brokenLevel f)
      (fun d2 i2 f2 e2 h1 h2 => ih d2 i2 f2 e2 h1 h2) dirs ip fs [] errs hfs hip

theorem errs_groups (md : Nat) (rn : String) :
    ∀ (dirs : List Dir) (specs : List (String × CommandGroupSpec)) (errs : List String),
      ∃ delta, (discoverGroups md rn dirs specs errs).2 = errs ++ delta ∧
        ∀ p ∈ (dirs.map (fun d =>
            if hiddenName d.name then [] else
              brokenLevel md (sortDirs d.subs) [d.name])).flatten,
          ∃ e ∈ delta, strContains e p = true := by
  intro dirs
  induction dirs with
  | nil =>
    intro specs errs
    exact ⟨[], by simp [discoverGroups], by simp⟩
  | cons d rest ih =>
    intro specs errs
    rcases hh : hiddenName d.name with _ | _
    · rcases hgm : load_group_meta (rn ++ "/" ++ d.name ++ "/meta.yaml") d.meta with e | gm
      · obtain ⟨delta1, h1, hcont1⟩ := errs_level md (sortDirs d.subs) [d.name]
          (rn ++ "/" ++ d.name) (errs ++ [e]) ⟨rn ++ "/", rfl⟩ (by simp)
        have hS : (_discover_nested_commands d [d.name] (rn ++ "/" ++ d.name) 0 md
            (errs ++ [e])).2 = (errs ++ [e]) ++ delta1 := by
          simpa [_discover_nested_commands] using h1
        obtain ⟨delta2, h2, hcont2⟩ := ih
          (if ((_discover_nested_commands d [d.name] (rn ++ "/" ++ d.name) 0 md
              (errs ++ [e])).1.isEmpty && (groupEntry rn d).isNone) = true then specs
           else dictInsert specs (_safe_name d.name)
             (mkGroupSpec d rn none
               (_discover_nested_commands d [d.name] (rn ++ "/" ++ d.name) 0 md
                 (errs ++ [e])).1))
          ((_discover_nested_commands d [d.name] (rn ++ "/" ++ d.name) 0 md
            (errs ++ [e])).2)
        refine ⟨[e] ++ delta1 ++ delta2, ?_, ?_⟩
        · simp only [discoverGroups, hh, Bool.false_eq_true, if_false, hgm]
          rw [h2, hS]
          simp [List.append_assoc]
        · intro p hp
          simp only [hh, Bool.false_eq_true, if_false, List.map_cons, List.flatten_cons,
            List.mem_append] at hp
          rcases hp with hp | hp
          · obtain ⟨e2, hed, hec⟩ := hcont1 p hp
            refine ⟨e2, ?_, hec⟩
            simp only [List.append_assoc, List.mem_append]
            exact Or.inr (Or.inl hed)
          · obtain ⟨e2, hed, hec⟩ := hcont2 p hp
            refine ⟨e2, ?_, hec⟩
            simp only [List.append_assoc, List.mem_append]
            exact Or.inr (Or.inr hed)
      · obtain ⟨delta1, h1, hcont1⟩ := errs_level md (sortDirs d.subs) [d.name]
          (rn ++ "/" ++ d.name) errs ⟨rn ++ "/", rfl⟩ (by simp)
        have hS : (_discover_nested_commands d [d.name] (rn ++ "/" ++ d.name) 0 md
            errs).2 = errs ++ delta1 := by
          simpa [_discover_nested_commands] using h1
        obtain ⟨delta2, h2, hcont2⟩ := ih
          (if ((_discover_nested_commands d [d.name] (rn ++ "/" ++ d.name) 0 md
              errs).1.isEmpty && (groupEntry rn d).isNone) = true then specs
           else dictInsert specs (_safe_name d.name)
             (mkGroupSpec d rn gm
               (_discover_nested_commands d [d.name] (rn ++ "/" ++ d.name) 0 md
                 errs).1))
          ((_discover_nested_commands d [d.name] (rn ++ "/" ++ d.name) 0 md errs).2)
        refine ⟨delta1 ++ delta2, ?_, ?_⟩
        · simp only [discoverGroups, hh, Bool.false_eq_true, if_false, hgm]
          rw [h2, hS]
          simp [List.append_assoc]
        · intro p hp
          simp only [hh, Bool.false_eq_true, if_false, List.map_cons, List.flatten_cons,
            List.mem_append] at hp
          rcases hp with hp | hp
          · obtain ⟨e2, hed, hec⟩ := hcont1 p hp
            exact ⟨e2, List.mem_append_left _ hed, hec⟩
          · obtain ⟨e2, hed, hec⟩ := hcont2 p hp
            exact ⟨e2, List.mem_append_right _ hed, hec⟩
    · obtain ⟨delta2, h2, hcont2⟩ := ih specs errs
      refine ⟨delta2, ?_, ?_⟩
      · simp only [discoverGroups, hh, if_true]
        exact h2
      · intro p hp
        simp only [hh, if_true, List.map_cons, List.flatten_cons, List.nil_append] at hp
        exact hcont2 p hp

/-! ## Claim C2 (corrected) -/

/-- C2 counterexample: `treeBrokenNested` contains two structurally broken
directories, `g/u1` (descriptor missing) and `g/u1/v` below it (entry file
missing), but the single `DiscoveryError` lists only `g/u1`: the walk
never enters a broken unit, so it does not fail at the first problem yet
also does not list broken units nested below another broken unit. -/
theorem c2_counterexample :
    dirU1.meta = none ∧ dirV.entry = none ∧ findChild dirU1 "v" = some dirV ∧
    (∃ m, discover_specs (some treeBrokenNested) defaultMaxDepth = .error m ∧
      strContains m "g/u1" = true ∧ strContains m "g/u1/v" = false) :=
  ⟨rfl, rfl, rfl,
    ⟨"Invalid command plugins detected:\n- g/u1: missing meta.yaml", rfl,
      by decide, by decide⟩⟩

/-- C2 (amended): discovery walks all sibling and nested candidates that
are not beneath a broken unit (and not beyond the depth cap), aggregating
every structural problem, and raises a single error after the whole walk:
whenever it fails, the message lists the relative path of every broken
unit the scan reached (`brokenAll`), never just the first one; and
whenever the scan reaches at least one broken unit, discovery does fail.
Directories below a broken unit are not scanned and are not listed. -/
theorem c2_error_aggregation :
    (∀ (t : Dir) (md : Nat) (m : String),
      discover_specs (some t) md = .error m →
        ∀ p ∈ brokenAll t md, strContains m p = true) ∧
    (∀ (t : Dir) (md : Nat), brokenAll t md ≠ [] →
      ∃ m, discover_specs (some t) md = .error m) := by
  constructor
  · intro t md m h p hp
    obtain ⟨delta, hd, hcont⟩ := errs_groups md t.name (sortDirs t.subs) [] []
    simp only [discover_specs] at h
    rcases he : (discoverGroups md t.name (sortDirs t.subs) [] []).2 with _ | ⟨e0, erest⟩
    · rw [he] at h
      simp at h
    · rw [he] at h
      simp only [List.isEmpty_cons, Bool.false_eq_true, if_false, Except.error.injEq] at h
      subst h
      obtain ⟨e, hed, hec⟩ := hcont p hp
      have hmem : e ∈ (discoverGroups md t.name (sortDirs t.subs) [] []).2 := by
        rw [hd]
        simpa using hed
      rw [he] at hmem
      have hj := joined_errors_contain "\n" "- " (e0 :: erest) e hmem
      exact strContains_trans hec (strContains_app_left _ _ _ hj)
  · intro t md hne
    obtain ⟨delta, hd, hcont⟩ := errs_groups md t.name (sortDirs t.subs) [] []
    obtain ⟨p, hp⟩ := List.exists_mem_of_ne_nil _ hne
    obtain ⟨e, hed, _⟩ := hcont p hp
    have hres : (discoverGroups md t.name (sortDirs t.subs) [] []).2 ≠ [] := by
      rw [hd]
      intro hcontra
      rw [List.nil_append] at hcontra
      rw [hcontra] at hed
      simp at hed
    refine ⟨"Invalid command plugins detected:\n" ++
      joinWith "\n" ((discoverGroups md t.name (sortDirs t.subs) [] []).2.map
        (fun e => "- " ++ e)), ?_⟩
    simp only [discover_specs]
    rw [if_neg ?_]
    simp only [List.isEmpty_iff]
    exact hres

/-- C2 witness: applied to `treeBrokenNested`, whose aggregate error is
concrete; every scan-reached broken path is listed and discovery fails. -/
theorem c2_witness :
    (∀ p ∈ brokenAll treeBrokenNested defaultMaxDepth,
      strContains "Invalid command plugins detected:\n- g/u1: missing meta.yaml" p = true) ∧
    (∃ m, discover_specs (some treeBrokenNested) defaultMaxDepth = .error m) :=
  ⟨c2_error_aggregation.1 treeBrokenNested defaultMaxDepth _ rfl,
    c2_error_aggregation.2 treeBrokenNested defaultMaxDepth (by decide)⟩

/-! ## Discovery invariants -/

theorem subsList_mkCommandSpec (d : Dir) (eo : ExportObj) (mf : MetaFile)
    (ip : List String) (fs : String) (meta : MetaRecord)
    (nested : List (String × CommandSpec)) :
    ∀ q ∈ subsList (mkCommandSpec d eo mf ip fs meta nested), q ∈ nested := by
  intro q hq
  simp only [subsList, mkCommandSpec, CommandSpec.subcommands] at hq
  rcases hn : nested.isEmpty with _ | _
  · rw [hn] at hq
    simpa using hq
  · rw [hn] at hq
    simp at hq

theorem fold_keys_nodup
    (recurse : List Dir → List String → String → List String →
      List (String × CommandSpec) × List String) :
    ∀ (dirs : List Dir) (ip : List String) (fs : String)
      (specs : List (String × CommandSpec)) (errs : List String),
      (specs.map Prod.fst).Nodup →
      (((discoverFold recurse dirs ip fs specs errs).1).map Prod.fst).Nodup := by
  intro dirs
  induction dirs with
  | nil =>
    intro ip fs specs errs h
    simpa [discoverFold] using h
  | cons d rest ih =>
    intro ip fs specs errs h
    rcases hh : hiddenName d.name with _ | _
    · rcases he : d.entry with _ | eo <;> rcases hm : d.meta with _ | mf
      · simp only [discoverFold, hh, Bool.false_eq_true, if_false, he, hm]
        exact ih ip fs specs _ h
      · simp only [discoverFold, hh, Bool.false_eq_true, if_false, he, hm]
        exact ih ip fs specs _ h
      · simp only [discoverFold, hh, Bool.false_eq_true, if_false, he, hm]
        exact ih ip fs specs _ h
      · rcases hl : load_meta (fs ++ "/" ++ d.name ++ "/meta.yaml") mf with e | meta
        · simp only [discoverFold, hh, Bool.false_eq_true, if_false, he, hm, hl]
          exact ih ip fs specs _ h
        · simp only [discoverFold, hh, Bool.false_eq_true, if_false, he, hm, hl]
          exact ih ip fs _ _ (dictInsert_keys_nodup _ _ h)
    · simp only [discoverFold, hh, if_true]
      exact ih ip fs specs errs h

theorem level_keys_nodup (f : Nat) (dirs : List Dir) (ip : List String) (fs : String)
    (errs : List String) :
    (((discoverLevel f dirs ip fs errs).1).map Prod.fst).Nodup := by
  cases f with
  | zero => simp [discoverLevel]
  | succ f => exact fold_keys_nodup (discoverLevel f) dirs ip fs [] errs (by simp)

theorem fold_tree_all (P : CommandSpec → Prop)
    (recurse : List Dir → List String → String → List String →
      List (String × CommandSpec) × List String)
    (hrecAll : ∀ dirs2 ip2 fs2 errs2, ∀ q ∈ (recurse dirs2 ip2 fs2 errs2).1,
      SpecTreeAll P q.2)
    (hrecKeys : ∀ dirs2 ip2 fs2 errs2,
      (((recurse dirs2 ip2 fs2 errs2).1).map Prod.fst).Nodup)
    (hP : ∀ (d : Dir) (eo : ExportObj) (mf : MetaFile) (ip : List String) (fs : String)
      (meta : MetaRecord) (nested : List (String × CommandSpec)),
      (∀ q ∈ nested, SpecTreeAll P q.2) → ((nested.map Prod.fst).Nodup) →
      P (mkCommandSpec d eo mf ip fs meta nested)) :
    ∀ (dirs : List Dir) (ip : List String) (fs : String)
      (specs : List (String × CommandSpec)) (errs : List String),
      (∀ q ∈ specs, SpecTreeAll P q.2) →
      ∀ q ∈ (discoverFold recurse dirs ip fs specs errs).1, SpecTreeAll P q.2 := by
  intro dirs
  induction dirs with
  | nil =>
    intro ip fs specs errs h q hq
    rw [discoverFold] at hq
    exact h q hq
  | cons d rest ih =>
    intro ip fs specs errs h q hq
    rcases hh : hiddenName d.name with _ | _
    · rcases he : d.entry with _ | eo <;> rcases hm : d.meta with _ | mf
      · simp only [discoverFold, hh, Bool.false_eq_true, if_false, he, hm] at hq
        exact ih ip fs specs _ h q hq
      · simp only [discoverFold, hh, Bool.false_eq_true, if_false, he, hm] at hq
        exact ih ip fs specs _ h q hq
      · simp only [discoverFold, hh, Bool.false_eq_true, if_false, he, hm] at hq
        exact ih ip fs specs _ h q hq
      · rcases hl : load_meta (fs ++ "/" ++ d.name ++ "/meta.yaml") mf with e | meta
        · simp only [discoverFold, hh, Bool.false_eq_true, if_false, he, hm, hl] at hq
          exact ih ip fs specs _ h q hq
        · simp only [discoverFold, hh, Bool.false_eq_true, if_false, he, hm, hl] at hq
          refine ih ip fs _ _ ?_ q hq
          intro q2 hq2
          rcases dictInsert_mem hq2 with hq2 | hq2
          · subst hq2
            refine SpecTreeAll.mk _ ?_ ?_
            · exact hP d eo mf ip fs meta _ (hrecAll _ _ _ _) (hrecKeys _ _ _ _)
            · intro q3 hq3
              exact hrecAll _ _ _ _ q3 (subsList_mkCommandSpec _ _ _ _ _ _ _ q3 hq3)
          · exact h q2 hq2
    · simp only [discoverFold, hh, if_true] at hq
      exact ih ip fs specs errs h q hq

theorem level_tree_all (P : CommandSpec → Prop)
    (hP : ∀ (d : Dir) (eo : ExportObj) (mf : MetaFile) (ip : List String) (fs : String)
      (meta : MetaRecord) (nested : List (String × CommandSpec)),
      (∀ q ∈ nested, SpecTreeAll P q.2) → ((nested.map Prod.fst).Nodup) →
      P (mkCommandSpec d eo mf ip fs meta nested)) :
    ∀ (f : Nat) (dirs : List Dir) (ip : List String) (fs : String) (errs : List String),
      ∀ q ∈ (discoverLevel f dirs ip fs errs).1, SpecTreeAll P q.2 := by
  intro f
  induction f with
  | zero =>
    intro dirs ip fs errs q hq
    simp [discoverLevel] at hq
  | succ f ih =>
    intro dirs ip fs errs q hq
    exact fold_tree_all P (discoverLevel f) (fun d2 i2 f2 e2 => ih d2 i2 f2 e2)
      (fun d2 i2 f2 e2 => level_keys_nodup f d2 i2 f2 e2) hP
      dirs ip fs [] errs (by simp) q hq

theorem groups_subs_all (R : List (String × CommandSpec) → Prop)
    (hlevel : ∀ (f : Nat) (dirs : List Dir) (ip : List String) (fs : String)
      (errs : List String), R (discoverLevel f dirs ip fs errs).1) :
    ∀ (md : Nat) (rn : String) (dirs : List Dir)
      (specs : List (String × CommandGroupSpec)) (errs : List String),
      (∀ p ∈ specs, R p.2.subcommands) →
      ∀ p ∈ (discoverGroups md rn dirs specs errs).1, R p.2.subcommands := by
  intro md rn dirs
  induction dirs with
  | nil =>
    intro specs errs h p hp
    rw [discoverGroups] at hp
    exact h p hp
  | cons d rest ih =>
    intro specs errs h p hp
    rcases hh : hiddenName d.name with _ | _
    · simp only [discoverGroups, hh, Bool.false_eq_true, if_false] at hp
      refine ih _ _ ?_ p hp
      intro q hq
      split at hq
      · exact h q hq
      · rcases dictInsert_mem hq with hq | hq
        · subst hq
          exact hlevel _ _ _ _ _
        · exact h q hq
    · simp only [discoverGroups, hh, if_true] at hp
      exact ih specs errs h p hp

theorem groups_keys_nodup (md : Nat) (rn : String) :
    ∀ (dirs : List Dir) (specs : List (String × CommandGroupSpec)) (errs : List String),
      (specs.map Prod.fst).Nodup →
      (((discoverGroups md rn dirs specs errs).1).map Prod.fst).Nodup := by
  intro dirs
  induction dirs with
  | nil =>
    intro specs errs h
    simpa [discoverGroups] using h
  | cons d rest ih =>
    intro specs errs h
    rcases hh : hiddenName d.name with _ | _
    · simp only [discoverGroups, hh, Bool.false_eq_true, if_false]
      refine ih _ _ ?_
      split
      · exact h
      · exact dictInsert_keys_nodup _ _ h
    · simp only [discoverGroups, hh, if_true]
      exact ih specs errs h

theorem subsList_mkCommandSpec_eq (d : Dir) (eo : ExportObj) (mf : MetaFile)
    (ip : List String) (fs : String) (meta : MetaRecord)
    (nested : List (String × CommandSpec)) :
    subsList (mkCommandSpec d eo mf ip fs meta nested) =
      if nested.isEmpty then [] else nested := by
  simp only [subsList, mkCommandSpec, CommandSpec.subcommands]
  split <;> simp

theorem discover_ok_groups {t : Dir} {md : Nat} {gs : List (String × CommandGroupSpec)}
    (h : discover_specs (some t) md = .ok gs) :
    gs = (discoverGroups md t.name (sortDirs t.subs) [] []).1 := by
  simp only [discover_specs] at h
  split at h
  · simp only [Except.ok.injEq] at h
    exact h.symm
  · exact absurd h (by simp)

/-! ## Claim C9 (corrected) -/

/-- C9 counterexample: in `treeCollide` the group `grp` holds two distinct
sibling directories, `x-y` and `x_y`, which normalize to the same unit
name `x-y`.  Discovery succeeds, but the group's children mapping keeps
only one entry — and it holds the later-sorted directory's spec
(`import_path ["grp", "x_y"]`), so the sibling `grp/x-y` did not retain an
entry of its own. -/
theorem c9_counterexample :
    discover_specs (some treeCollide) defaultMaxDepth = .ok gsCollide ∧
    (∃ grp, treeCollide.subs = [grp] ∧ grp.subs.length = 2 ∧
      grp.subs.map (fun c => _safe_name (Dir.name c)) = ["x-y", "x-y"]) ∧
    (∃ gsp, dictGet gsCollide "grp" = some gsp ∧ gsp.subcommands.length = 1 ∧
      gsp.subcommands.map Prod.fst = ["x-y"] ∧
      ∀ q ∈ gsp.subcommands, q.2.imp_path = ["grp", "x_y"]) :=
  ⟨rfl, ⟨Dir.mk "grp" none none
      [Dir.mk "x-y" (some .ecommand) (some (metaSimple "Hyphen.")) [],
       Dir.mk "x_y" (some .ecommand) (some (metaSimple "Underscore.")) []],
    rfl, rfl, rfl⟩,
   ⟨gspCollide, rfl, rfl, rfl, by decide⟩⟩

/-- C9 (amended): in every discovered tree the keys of each children
mapping are unique (they form a Python dict), at the top level and at
every nested node.  However, two distinct sibling directories can
normalize to the same unit name (underscore vs hyphen); in that case the
later assignment overwrites the earlier sibling's entry in place — the
key set is unchanged and the mapping holds the later value — so not every
sibling directory retains its own entry. -/
theorem c9_sibling_names :
    (∀ (t : Dir) (md : Nat) (gs : List (String × CommandGroupSpec)),
      discover_specs (some t) md = .ok gs →
        (gs.map Prod.fst).Nodup ∧
        ∀ p ∈ gs, (p.2.subcommands.map Prod.fst).Nodup ∧
          ∀ q ∈ p.2.subcommands,
            SpecTreeAll (fun s => ((subsList s).map Prod.fst).Nodup) q.2) ∧
    (∀ (dct : List (String × CommandSpec)) (k : String) (v : CommandSpec),
      k ∈ dct.map Prod.fst →
        (dictInsert dct k v).map Prod.fst = dct.map Prod.fst ∧
        dictGet (dictInsert dct k v) k = some v) := by
  constructor
  · intro t md gs h
    have hgs := discover_ok_groups h
    subst hgs
    constructor
    · exact groups_keys_nodup md t.name (sortDirs t.subs) [] [] (by simp)
    · have hP : ∀ (d : Dir) (eo : ExportObj) (mf : MetaFile) (ip : List String)
          (fs : String) (meta : MetaRecord) (nested : List (String × CommandSpec)),
          (∀ q ∈ nested,
            SpecTreeAll (fun s => ((subsList s).map Prod.fst).Nodup) q.2) →
          ((nested.map Prod.fst).Nodup) →
          ((subsList (mkCommandSpec d eo mf ip fs meta nested)).map Prod.fst).Nodup := by
        intro d eo mf ip fs meta nested _ hk
        rw [subsList_mkCommandSpec_eq]
        split
        · simp
        · exact hk
      have hmain := groups_subs_all
        (fun l => (l.map Prod.fst).Nodup ∧
          ∀ q ∈ l, SpecTreeAll (fun s => ((subsList s).map Prod.fst).Nodup) q.2)
        (fun f dirs ip fs errs =>
          ⟨level_keys_nodup f dirs ip fs errs,
            fun q hq => level_tree_all _ hP f dirs ip fs errs q hq⟩)
        md t.name (sortDirs t.subs) [] [] (by simp)
      intro p hp
      exact hmain p hp
  · intro dct k v hk
    exact ⟨dictInsert_keys_of_mem v hk, dictGet_insert_self dct k v⟩

/-- C9 witness: the collision-free tree `treeAlpha` has unique names at
every node, and a concrete overwrite on a one-entry dict. -/
theorem c9_witness :
    ((groupsAlpha.map Prod.fst).Nodup ∧
      ∀ p ∈ groupsAlpha, (p.2.subcommands.map Prod.fst).Nodup ∧
        ∀ q ∈ p.2.subcommands,
          SpecTreeAll (fun s => ((subsList s).map Prod.fst).Nodup) q.2) ∧
    ((dictInsert [("a", dummySpec)] "a" dummySpec).map Prod.fst =
        [("a", dummySpec)].map Prod.fst ∧
      dictGet (dictInsert [("a", dummySpec)] "a" dummySpec) "a" = some dummySpec) :=
  ⟨c9_sibling_names.1 treeAlpha defaultMaxDepth groupsAlpha rfl,
    c9_sibling_names.2 [("a", dummySpec)] "a" dummySpec (by simp)⟩

/-! ## Well-formedness of discovered trees (claim C1 infrastructure) -/

theorem fold_wf
    (recurse : List Dir → List String → String → List String →
      List (String × CommandSpec) × List String)
    (hrec : ∀ dirs2 ip2 fs2 errs2, ∀ q ∈ (recurse dirs2 ip2 fs2 errs2).1,
      SpecWF (ip2.map _safe_name) q.1 q.2) :
    ∀ (dirs : List Dir) (ip : List String) (fs : String)
      (specs : List (String × CommandSpec)) (errs : List String),
      (∀ q ∈ specs, SpecWF (ip.map _safe_name) q.1 q.2) →
      ∀ q ∈ (discoverFold recurse dirs ip fs specs errs).1,
        SpecWF (ip.map _safe_name) q.1 q.2 := by
  intro dirs
  induction dirs with
  | nil =>
    intro ip fs specs errs h q hq
    rw [discoverFold] at hq
    exact h q hq
  | cons d rest ih =>
    intro ip fs specs errs h q hq
    rcases hh : hiddenName d.name with _ | _
    · rcases he : d.entry with _ | eo <;> rcases hm : d.meta with _ | mf
      · simp only [discoverFold, hh, Bool.false_eq_true, if_false, he, hm] at hq
        exact ih ip fs specs _ h q hq
      · simp only [discoverFold, hh, Bool.false_eq_true, if_false, he, hm] at hq
        exact ih ip fs specs _ h q hq
      · simp only [discoverFold, hh, Bool.false_eq_true, if_false, he, hm] at hq
        exact ih ip fs specs _ h q hq
      · rcases hl : load_meta (fs ++ "/" ++ d.name ++ "/meta.yaml") mf with e | meta
        · simp only [discoverFold, hh, Bool.false_eq_true, if_false, he, hm, hl] at hq
          exact ih ip fs specs _ h q hq
        · simp only [discoverFold, hh, Bool.false_eq_true, if_false, he, hm, hl] at hq
          refine ih ip fs _ _ ?_ q hq
          intro q2 hq2
          rcases dictInsert_mem hq2 with hq2 | hq2
          · subst hq2
            refine SpecWF.mk _ _ _ ?_ ?_
            · simp [mkCommandSpec, CommandSpec.imp_path]
            · intro q3 hq3
              have := hrec (sortDirs d.subs) (ip ++ [d.name]) (fs ++ "/" ++ d.name)
                errs q3 (subsList_mkCommandSpec _ _ _ _ _ _ _ q3 hq3)
              simpa [List.map_append] using this
          · exact h q2 hq2
    · simp only [discoverFold, hh, if_true] at hq
      exact ih ip fs specs errs h q hq

theorem level_wf :
    ∀ (f : Nat) (dirs : List Dir) (ip : List String) (fs : String) (errs : List String),
      ∀ q ∈ (discoverLevel f dirs ip fs errs).1, SpecWF (ip.map _safe_name) q.1 q.2 := by
  intro f
  induction f with
  | zero =>
    intro dirs ip fs errs q hq
    simp [discoverLevel] at hq
  | succ f ih =>
    intro dirs ip fs errs q hq
    exact fold_wf (discoverLevel f) (fun d2 i2 f2 e2 => ih d2 i2 f2 e2)
      dirs ip fs [] errs (by simp) q hq

theorem groups_wf (md : Nat) (rn : String) :
    ∀ (dirs : List Dir) (specs : List (String × CommandGroupSpec)) (errs : List String),
      GroupsWF specs → GroupsWF (discoverGroups md rn dirs specs errs).1 := by
  intro dirs
  induction dirs with
  | nil =>
    intro specs errs h p hp
    rw [discoverGroups] at hp
    exact h p hp
  | cons d rest ih =>
    intro specs errs h p hp
    rcases hh : hiddenName d.name with _ | _
    · simp only [discoverGroups, hh, Bool.false_eq_true, if_false] at hp
      refine ih _ _ ?_ p hp
      intro q hq
      split at hq
      · exact h q hq
      · rcases dictInsert_mem hq with hq | hq
        · subst hq
          constructor
          · simp [mkGroupSpec]
          · intro q2 hq2
            simp only [mkGroupSpec] at hq2
            have := level_wf (md - 0) (sortDirs d.subs) [d.name] (rn ++ "/" ++ d.name)
              _ q2 hq2
            simpa using this
        · exact h q hq
    · simp only [discoverGroups, hh, if_true] at hp
      exact ih specs errs h p hp

/-! ## Loads stay on the resolution chain (claim C1) -/

theorem load_click_command_wf {pre : List String} {k : String} {spec : CommandSpec}
    (hwf : SpecWF pre k spec) :
    (∀ e ∈ (load_click_command spec).1, e.map _safe_name = pre ++ [k]) ∧
    (∀ cc, (load_click_command spec).2 = .ok cc → CCWF (pre ++ [k]) cc) := by
  cases hwf with
  | mk _ _ _ hpath hsub =>
    rcases hen : spec.enabled.truthy with _ | _
    · rcases hg : spec.is_group with _ | _
      all_goals constructor
      all_goals intro x hx
      all_goals simp [load_click_command, hen, hg] at hx
      all_goals subst hx
      all_goals simp [CCWF]
    · rcases hl : load_meta spec.meta_path spec.metaF with e0 | meta
      · constructor
        · intro e he
          simp [load_click_command, hen, hl] at he
        · intro cc hcc
          simp [load_click_command, hen, hl] at hcc
      · rcases hg : spec.is_group with _ | _ <;> rcases heo : spec.entryObj with _ | _ | _
        all_goals constructor
        -- is_group=false, export Command: loaded as a leaf
        · intro e he
          simp [load_click_command, hen, hl, hg, heo] at he
          subst he
          exact hpath
        · intro cc hcc
          simp [load_click_command, hen, hl, hg, heo] at hcc
          subst hcc
          simp [CCWF]
        -- is_group=false, export Group: still accepted as a click.Command
        · intro e he
          simp [load_click_command, hen, hl, hg, heo] at he
          subst he
          exact hpath
        · intro cc hcc
          simp [load_click_command, hen, hl, hg, heo] at hcc
          subst hcc
          simp [CCWF]
        -- is_group=false, no export: load error
        · intro e he
          simp [load_click_command, hen, hl, hg, heo] at he
          subst he
          exact hpath
        · intro cc hcc
          simp [load_click_command, hen, hl, hg, heo] at hcc
        -- is_group=true, export Command: load error
        · intro e he
          simp [load_click_command, hen, hl, hg, heo] at he
          subst he
          exact hpath
        · intro cc hcc
          simp [load_click_command, hen, hl, hg, heo] at hcc
        -- is_group=true, export Group: lazy nested wrapper
        · intro e he
          simp [load_click_command, hen, hl, hg, heo] at he
          subst he
          exact hpath
        · intro cc hcc
          simp [load_click_command, hen, hl, hg, heo] at hcc
          subst hcc
          simp only [CCWF]
          exact hsub
        -- is_group=true, no export: load error
        · intro e he
          simp [load_click_command, hen, hl, hg, heo] at he
          subst he
          exact hpath
        · intro cc hcc
          simp [load_click_command, hen, hl, hg, heo] at hcc

theorem ccwf_applyGroupMeta (pre : List String) (gs : CommandGroupSpec) (cc : CC)
    (h : CCWF pre cc) : CCWF pre (applyGroupMeta gs cc) := by
  cases cc <;> simp only [applyGroupMeta] <;> split <;>
    simp_all [ccSetHelp, ccSetHidden, CCWF]

theorem ccGet_inv {cc : CC} {s : String} {l : List (List String)}
    {r : Except String CC} (h : ccGet cc s = some (l, r)) :
    ∃ n sh ht hd specs sp, cc = CC.lazyGroup n sh ht hd specs ∧
      dictGet specs s = some sp ∧ load_click_command sp = (l, r) := by
  cases cc with
  | lazyGroup n sh ht hd specs =>
    simp only [ccGet] at h
    rcases hdg : dictGet specs s with _ | sp
    · rw [hdg] at h
      simp at h
    · rw [hdg] at h
      simp only [Option.some.injEq] at h
      exact ⟨n, sh, ht, hd, specs, sp, rfl, hdg, h⟩
  | stubGroup n m => simp [ccGet] at h
  | stubCmd n m => simp [ccGet] at h
  | leaf n sh ht hd => simp [ccGet] at h

theorem resolveSegs_loads :
    ∀ (segs : List String) (pre : List String) (cc : CC), CCWF pre cc →
      ∀ e ∈ (resolveSegs cc segs).1, e.map _safe_name <+: pre ++ segs := by
  intro segs
  induction segs with
  | nil =>
    intro pre cc hwf e he
    simp [resolveSegs] at he
  | cons s rest ih =>
    intro pre cc hwf e he
    rcases hget : ccGet cc s with _ | lr
    · simp [resolveSegs, hget] at he
    · obtain ⟨l, r⟩ := lr
      obtain ⟨n, sh, ht, hd, specs, sp, hcc, hdg, hload⟩ := ccGet_inv hget
      subst hcc
      have hwfs : SpecWF pre s sp := hwf (s, sp) (mem_of_dictGet hdg)
      obtain ⟨hl1, hl2⟩ := load_click_command_wf hwfs
      cases r with
      | error e0 =>
        simp only [resolveSegs, hget] at he
        have hmap : e.map _safe_name = pre ++ [s] := hl1 e (by rw [hload]; exact he)
        refine ⟨rest, ?_⟩
        rw [hmap]
        simp
      | ok cc2 =>
        simp only [resolveSegs, hget] at he
        rcases List.mem_append.mp he with he2 | he2
        · have hmap : e.map _safe_name = pre ++ [s] := hl1 e (by rw [hload]; exact he2)
          refine ⟨rest, ?_⟩
          rw [hmap]
          simp
        · have hwf2 : CCWF (pre ++ [s]) cc2 := hl2 cc2 (by rw [hload])
          have hpref := ih (pre ++ [s]) cc2 hwf2 e he2
          have heq : (pre ++ [s]) ++ rest = pre ++ (s :: rest) := by simp
          rw [heq] at hpref
          exact hpref

theorem root_get_wf {gspecs : List (String × CommandGroupSpec)}
    (hwf : GroupsWF gspecs) (g : String) :
    (∀ e ∈ (root_get_command gspecs g).1, e.map _safe_name = [g]) ∧
    (∀ cc, (root_get_command gspecs g).2 = some (.ok cc) → CCWF [g] cc) := by
  rcases hget : dictGet gspecs g with _ | gs
  · constructor
    · intro e he
      simp [root_get_command, hget] at he
    · intro cc hcc
      simp [root_get_command, hget] at hcc
  · obtain ⟨hkey0, hsubs0⟩ := hwf (g, gs) (mem_of_dictGet hget)
    have hkey : _safe_name gs.imp_command = g := hkey0
    have hsubs : ∀ q ∈ gs.subcommands, SpecWF [g] q.1 q.2 := hsubs0
    rcases hen : gs.enabled.truthy with _ | _
    · constructor
      · intro e he
        simp [root_get_command, hget, hen] at he
      · intro cc hcc
        simp [root_get_command, hget, hen] at hcc
        subst hcc
        simp [CCWF]
    · rcases hent : gs.entry with _ | ⟨epath, eo⟩
      · constructor
        · intro e he
          simp [root_get_command, hget, hen, hent] at he
        · intro cc hcc
          simp [root_get_command, hget, hen, hent] at hcc
          subst hcc
          apply ccwf_applyGroupMeta
          simp only [CCWF]
          exact hsubs
      · rcases hse : gs.subcommands.isEmpty with _ | _ <;>
          rcases heo : eo with _ | _ | _
        all_goals constructor
        -- subcommands nonempty, export Command (load_click_group fails)
        · intro e he
          simp [root_get_command, hget, hen, hent, hse, heo, load_click_group] at he
          subst he
          simp [hkey]
        · intro cc hcc
          simp [root_get_command, hget, hen, hent, hse, heo, load_click_group] at hcc
        -- subcommands nonempty, export Group (wrapped lazy plugin group)
        · intro e he
          simp [root_get_command, hget, hen, hent, hse, heo, load_click_group] at he
          subst he
          simp [hkey]
        · intro cc hcc
          simp [root_get_command, hget, hen, hent, hse, heo, load_click_group] at hcc
          subst hcc
          apply ccwf_applyGroupMeta
          simp only [CCWF]
          exact hsubs
        -- subcommands nonempty, no export (load_click_group fails)
        · intro e he
          simp [root_get_command, hget, hen, hent, hse, heo, load_click_group] at he
          subst he
          simp [hkey]
        · intro cc hcc
          simp [root_get_command, hget, hen, hent, hse, heo, load_click_group] at hcc
        -- subcommands empty, export Command (standalone command)
        · intro e he
          simp [root_get_command, hget, hen, hent, hse, heo,
            load_click_command_from_entry] at he
          subst he
          simp [hkey]
        · intro cc hcc
          simp [root_get_command, hget, hen, hent, hse, heo,
            load_click_command_from_entry] at hcc
          subst hcc
          apply ccwf_applyGroupMeta
          simp [CCWF]
        -- subcommands empty, export Group (standalone group from entry)
        · intro e he
          simp [root_get_command, hget, hen, hent, hse, heo,
            load_click_command_from_entry] at he
          subst he
          simp [hkey]
        · intro cc hcc
          simp [root_get_command, hget, hen, hent, hse, heo,
            load_click_command_from_entry] at hcc
          subst hcc
          apply ccwf_applyGroupMeta
          simp [CCWF]
        -- subcommands empty, no export (load fails)
        · intro e he
          simp [root_get_command, hget, hen, hent, hse, heo,
            load_click_command_from_entry] at he
          subst he
          simp [hkey]
        · intro cc hcc
          simp [root_get_command, hget, hen, hent, hse, heo,
            load_click_command_from_entry] at hcc

/-! ## Claim C1 -/

/-- C1: lazy loading.  For every discovered tree and every dispatched
dotted path, the entry modules executed during dispatch are exactly those
of units on the invoked resolution chain: each executed entry's import
path, normalized to display names, is a prefix of the invoked path.  In
particular the entry artifact of a sibling unit or of an unrelated group
is never executed. -/
theorem c1_lazy_loading :
    ∀ (t : Dir) (md : Nat) (gs : List (String × CommandGroupSpec)) (path : List String),
      discover_specs (some t) md = .ok gs →
      ∀ e ∈ (resolvePath gs path).1, e.map _safe_name <+: path := by
  intro t md gs path h e he
  have hwf : GroupsWF gs := by
    rw [discover_ok_groups h]
    exact groups_wf md t.name (sortDirs t.subs) [] []
      (by intro p hp; simp at hp)
  cases path with
  | nil => simp [resolvePath] at he
  | cons g rest =>
    obtain ⟨h1, h2⟩ := root_get_wf hwf g
    rcases hr : root_get_command gs g with ⟨l, ro⟩
    rw [hr] at h1 h2
    cases ro with
    | none =>
      simp only [resolvePath, hr] at he
      have hmap := h1 e he
      refine ⟨rest, ?_⟩
      rw [hmap]
      rfl
    | some res =>
      cases res with
      | error e0 =>
        simp only [resolvePath, hr] at he
        have hmap := h1 e he
        refine ⟨rest, ?_⟩
        rw [hmap]
        rfl
      | ok cc =>
        simp only [resolvePath, hr] at he
        rcases List.mem_append.mp he with he2 | he2
        · have hmap := h1 e he2
          refine ⟨rest, ?_⟩
          rw [hmap]
          rfl
        · have hwf2 : CCWF [g] cc := h2 cc rfl
          have hpref := resolveSegs_loads rest [g] cc hwf2 e he2
          have heq : ([g] : List String) ++ rest = g :: rest := rfl
          rw [heq] at hpref
          exact hpref

/-- C1 witness: dispatching `alpha beta` on `treeAlpha` only executes
entries whose display paths prefix the invoked path. -/
theorem c1_witness :
    (resolvePath groupsAlpha ["alpha", "beta"]).1 = [["alpha"], ["alpha", "beta"]] ∧
    List.map _safe_name ["alpha"] <+: ["alpha", "beta"] ∧
    List.map _safe_name ["alpha", "beta"] <+: ["alpha", "beta"] :=
  ⟨rfl,
    c1_lazy_loading treeAlpha defaultMaxDepth groupsAlpha ["alpha", "beta"] rfl
      ["alpha"] (List.mem_cons_self _ _),
    c1_lazy_loading treeAlpha defaultMaxDepth groupsAlpha ["alpha", "beta"] rfl
      ["alpha", "beta"] (List.mem_cons_of_mem _ (List.mem_cons_self _ _))⟩

/-! ## Sorting and find lemmas -/

theorem insertBy_perm (le : α → α → Bool) (x : α) :
    ∀ l : List α, (insertBy le x l).Perm (x :: l) := by
  intro l
  induction l with
  | nil => simp [insertBy]
  | cons y ys ih =>
    simp only [insertBy]
    split
    · exact List.Perm.refl _
    · exact (List.Perm.cons y ih).trans (List.Perm.swap x y ys)

theorem sortBy_perm (le : α → α → Bool) : ∀ l : List α, (sortBy le l).Perm l := by
  intro l
  induction l with
  | nil => simp [sortBy]
  | cons x xs ih =>
    simp only [sortBy]
    exact (insertBy_perm le x (sortBy le xs)).trans (List.Perm.cons x ih)

theorem mem_sortDirs {d : Dir} {l : List Dir} (h : d ∈ l) : d ∈ sortDirs l :=
  ((sortBy_perm _ l).mem_iff).mpr h

theorem sortDirs_safe_nodup {l : List Dir}
    (h : (l.map (fun c => _safe_name (Dir.name c))).Nodup) :
    ((sortDirs l).map (fun c => _safe_name (Dir.name c))).Nodup :=
  (((sortBy_perm _ l).map _).nodup_iff).mpr h

theorem findChild_mem {d : Dir} {n : String} {c : Dir} (h : findChild d n = some c) :
    c ∈ d.subs ∧ c.name = n := by
  constructor
  · exact List.mem_of_find?_eq_some h
  · have := List.find?_some h
    simpa using this

/-! ## Error monotonicity (without containment) -/

theorem fold_errs_mono
    (recurse : List Dir → List String → String → List String →
      List (String × CommandSpec) × List String)
    (hrec : ∀ d2 i2 f2 e2, ∃ delta, (recurse d2 i2 f2 e2).2 = e2 ++ delta) :
    ∀ (dirs : List Dir) (ip : List String) (fs : String)
      (specs : List (String × CommandSpec)) (errs : List String),
      ∃ delta, (discoverFold recurse dirs ip fs specs errs).2 = errs ++ delta := by
  intro dirs
  induction dirs with
  | nil =>
    intro ip fs specs errs
    exact ⟨[], by simp [discoverFold]⟩
  | cons d rest ih =>
    intro ip fs specs errs
    rcases hh : hiddenName d.name with _ | _
    · rcases he : d.entry with _ | eo <;> rcases hm : d.meta with _ | mf
      · obtain ⟨delta2, h2⟩ := ih ip fs specs (errs ++ [missingMsg ip d.name none none])
        exact ⟨_, by
          simp only [discoverFold, hh, Bool.false_eq_true, if_false, he, hm]
          rw [h2, List.append_assoc]⟩
      · obtain ⟨delta2, h2⟩ := ih ip fs specs (errs ++ [missingMsg ip d.name none (some mf)])
        exact ⟨_, by
          simp only [discoverFold, hh, Bool.false_eq_true, if_false, he, hm]
          rw [h2, List.append_assoc]⟩
      · obtain ⟨delta2, h2⟩ := ih ip fs specs (errs ++ [missingMsg ip d.name (some eo) none])
        exact ⟨_, by
          simp only [discoverFold, hh, Bool.false_eq_true, if_false, he, hm]
          rw [h2, List.append_assoc]⟩
      · rcases hl : load_meta (fs ++ "/" ++ d.name ++ "/meta.yaml") mf with e | meta
        · obtain ⟨delta2, h2⟩ := ih ip fs specs (errs ++ [e])
          exact ⟨_, by
            simp only [discoverFold, hh, Bool.false_eq_true, if_false, he, hm, hl]
            rw [h2, List.append_assoc]⟩
        · obtain ⟨delta1, h1⟩ := hrec (sortDirs d.subs) (ip ++ [d.name])
            (fs ++ "/" ++ d.name) errs
          obtain ⟨delta2, h2⟩ := ih ip fs
            (dictInsert specs (_safe_name d.name)
              (mkCommandSpec d eo mf ip fs meta
                (recurse (sortDirs d.subs) (ip ++ [d.name]) (fs ++ "/" ++ d.name)
                  errs).1))
            (recurse (sortDirs d.subs) (ip ++ [d.name]) (fs ++ "/" ++ d.name) errs).2
          exact ⟨delta1 ++ delta2, by
            simp only [discoverFold, hh, Bool.false_eq_true, if_false, he, hm, hl]
            rw [h2, h1, List.append_assoc]⟩
    · obtain ⟨delta2, h2⟩ := ih ip fs specs errs
      exact ⟨delta2, by
        simp only [discoverFold, hh, if_true]
        exact h2⟩

theorem level_errs_mono :
    ∀ (f : Nat) (dirs : List Dir) (ip : List String) (fs : String) (errs : List String),
      ∃ delta, (discoverLevel f dirs ip fs errs).2 = errs ++ delta := by
  intro f
  induction f with
  | zero =>
    intro dirs ip fs errs
    exact ⟨[], by simp [discoverLevel]⟩
  | succ f ih =>
    intro dirs ip fs errs
    exact fold_errs_mono (discoverLevel f) (fun d2 i2 f2 e2 => ih d2 i2 f2 e2)
      dirs ip fs [] errs

/-! ## Lookup preservation across later siblings -/

theorem fold_get_preserved
    (recurse : List Dir → List String → String → List String →
      List (String × CommandSpec) × List String) :
    ∀ (dirs : List Dir) (ip : List String) (fs : String)
      (specs : List (String × CommandSpec)) (errs : List String) (k : String),
      (∀ c ∈ dirs, _safe_name (Dir.name c) ≠ k) →
      dictGet (discoverFold recurse dirs ip fs specs errs).1 k = dictGet specs k := by
  intro dirs
  induction dirs with
  | nil =>
    intro ip fs specs errs k _
    rw [discoverFold]
  | cons d rest ih =>
    intro ip fs specs errs k hk
    have hkd : _safe_name (Dir.name d) ≠ k := hk d (List.mem_cons_self _ _)
    have hkrest : ∀ c ∈ rest, _safe_name (Dir.name c) ≠ k :=
      fun c hc => hk c (List.mem_cons_of_mem _ hc)
    rcases hh : hiddenName d.name with _ | _
    · rcases he : d.entry with _ | eo <;> rcases hm : d.meta with _ | mf
      · simp only [discoverFold, hh, Bool.false_eq_true, if_false, he, hm]
        exact ih ip fs specs _ k hkrest
      · simp only [discoverFold, hh, Bool.false_eq_true, if_false, he, hm]
        exact ih ip fs specs _ k hkrest
      · simp only [discoverFold, hh, Bool.false_eq_true, if_false, he, hm]
        exact ih ip fs specs _ k hkrest
      · rcases hl : load_meta (fs ++ "/" ++ d.name ++ "/meta.yaml") mf with e | meta
        · simp only [discoverFold, hh, Bool.false_eq_true, if_false, he, hm, hl]
          exact ih ip fs specs _ k hkrest
        · simp only [discoverFold, hh, Bool.false_eq_true, if_false, he, hm, hl]
          rw [ih ip fs _ _ k hkrest]
          exact dictGet_insert_other _ _ _ _ (Ne.symm hkd)
    · simp only [discoverFold, hh, if_true]
      exact ih ip fs specs errs k hkrest

theorem groups_get_preserved (md : Nat) (rn : String) :
    ∀ (dirs : List Dir) (specs : List (String × CommandGroupSpec))
      (errs : List String) (k : String),
      (∀ c ∈ dirs, _safe_name (Dir.name c) ≠ k) →
      dictGet (discoverGroups md rn dirs specs errs).1 k = dictGet specs k := by
  intro dirs
  induction dirs with
  | nil =>
    intro specs errs k _
    rw [discoverGroups]
  | cons d rest ih =>
    intro specs errs k hk
    have hkd : _safe_name (Dir.name d) ≠ k := hk d (List.mem_cons_self _ _)
    have hkrest : ∀ c ∈ rest, _safe_name (Dir.name c) ≠ k :=
      fun c hc => hk c (List.mem_cons_of_mem _ hc)
    rcases hh : hiddenName d.name with _ | _
    · simp only [discoverGroups, hh, Bool.false_eq_true, if_false]
      rw [ih _ _ k hkrest]
      split
      · rfl
      · exact dictGet_insert_other _ _ _ _ (Ne.symm hkd)
    · simp only [discoverGroups, hh, if_true]
      exact ih specs errs k hkrest

theorem groups_errs_mono (md : Nat) (rn : String) :
    ∀ (dirs : List Dir) (specs : List (String × CommandGroupSpec)) (errs : List String),
      ∃ delta, (discoverGroups md rn dirs specs errs).2 = errs ++ delta := by
  intro dirs
  induction dirs with
  | nil =>
    intro specs errs
    exact ⟨[], by simp [discoverGroups]⟩
  | cons d rest ih =>
    intro specs errs
    rcases hh : hiddenName d.name with _ | _
    · rcases hgm : load_group_meta (rn ++ "/" ++ d.name ++ "/meta.yaml") d.meta with e | gm
      · obtain ⟨delta1, h1⟩ := level_errs_mono md (sortDirs d.subs) [d.name]
          (rn ++ "/" ++ d.name) (errs ++ [e])
        obtain ⟨delta2, h2⟩ := ih
          (if ((_discover_nested_commands d [d.name] (rn ++ "/" ++ d.name) 0 md
              (errs ++ [e])).1.isEmpty && (groupEntry rn d).isNone) = true then specs
           else dictInsert specs (_safe_name d.name)
             (mkGroupSpec d rn none
               (_discover_nested_commands d [d.name] (rn ++ "/" ++ d.name) 0 md
                 (errs ++ [e])).1))
          ((_discover_nested_commands d [d.name] (rn ++ "/" ++ d.name) 0 md
            (errs ++ [e])).2)
        refine ⟨[e] ++ delta1 ++ delta2, ?_⟩
        simp only [discoverGroups, hh, Bool.false_eq_true, if_false, hgm]
        rw [h2]
        have hS : (_discover_nested_commands d [d.name] (rn ++ "/" ++ d.name) 0 md
            (errs ++ [e])).2 = (errs ++ [e]) ++ delta1 := by
          simpa [_discover_nested_commands] using h1
        rw [hS]
        simp [List.append_assoc]
      · obtain ⟨delta1, h1⟩ := level_errs_mono md (sortDirs d.subs) [d.name]
          (rn ++ "/" ++ d.name) errs
        obtain ⟨delta2, h2⟩ := ih
          (if ((_discover_nested_commands d [d.name] (rn ++ "/" ++ d.name) 0 md
              errs).1.isEmpty && (groupEntry rn d).isNone) = true then specs
           else dictInsert specs (_safe_name d.name)
             (mkGroupSpec d rn gm
               (_discover_nested_commands d [d.name] (rn ++ "/" ++ d.name) 0 md
                 errs).1))
          ((_discover_nested_commands d [d.name] (rn ++ "/" ++ d.name) 0 md errs).2)
        refine ⟨delta1 ++ delta2, ?_⟩
        simp only [discoverGroups, hh, Bool.false_eq_true, if_false, hgm]
        rw [h2]
        have hS : (_discover_nested_commands d [d.name] (rn ++ "/" ++ d.name) 0 md
            errs).2 = errs ++ delta1 := by
          simpa [_discover_nested_commands] using h1
        rw [hS]
        simp [List.append_assoc]
    · obtain ⟨delta2, h2⟩ := ih specs errs
      exact ⟨delta2, by
        simp only [discoverGroups, hh, if_true]
        exact h2⟩

/-! ## Discovery completeness (claim C4 infrastructure) -/

theorem append_cons_ne (l : List String) (x : String) (t : List String) :
    l ++ (x :: t) ≠ l := by
  intro h
  have := congrArg List.length h
  simp at this

theorem subsAt_nil_none (k : String) (ks : List String) :
    subsAt [] (k :: ks) = none := rfl

theorem fold_complete
    (recurse : List Dir → List String → String → List String →
      List (String × CommandSpec) × List String)
    (bound : Nat)
    (hrecMono : ∀ d2 i2 f2 e2, ∃ delta, (recurse d2 i2 f2 e2).2 = e2 ++ delta)
    (hrecComp : ∀ (dirs2 : List Dir) (ip2 : List String) (fs2 : String)
      (errs2 : List String) (d2 : Dir) (us2 : List String),
      d2 ∈ dirs2 → hiddenName d2.name = false →
      (dirs2.map (fun c => _safe_name (Dir.name c))).Nodup →
      chainCond d2 us2 → us2.length + 1 ≤ bound →
      (recurse dirs2 ip2 fs2 errs2).2 = errs2 →
      ∃ sp, subsAt (recurse dirs2 ip2 fs2 errs2).1
          ((d2.name :: us2).map _safe_name) = some sp ∧
        sp.imp_path = ip2 ++ (d2.name :: us2)) :
    ∀ (dirs : List Dir) (ip : List String) (fs : String)
      (specs : List (String × CommandSpec)) (errs : List String)
      (d : Dir) (us : List String),
      d ∈ dirs → hiddenName d.name = false →
      (dirs.map (fun c => _safe_name (Dir.name c))).Nodup →
      chainCond d us → us.length ≤ bound →
      (discoverFold recurse dirs ip fs specs errs).2 = errs →
      ∃ sp, subsAt (discoverFold recurse dirs ip fs specs errs).1
          ((d.name :: us).map _safe_name) = some sp ∧
        sp.imp_path = ip ++ (d.name :: us) := by
  intro dirs
  induction dirs with
  | nil =>
    intro ip fs specs errs d us hd
    simp at hd
  | cons c rest ih =>
    intro ip fs specs errs d us hd hdh hn hcc hlen herr
    have hntail : (rest.map (fun c2 => _safe_name (Dir.name c2))).Nodup := by
      simp only [List.map_cons, List.nodup_cons] at hn
      exact hn.2
    have hhead_notin : _safe_name (Dir.name c) ∉
        rest.map (fun c2 => _safe_name (Dir.name c2)) := by
      simp only [List.map_cons, List.nodup_cons] at hn
      exact hn.1
    rcases hh : hiddenName c.name with _ | _
    · -- head is scanned
      rcases he : c.entry with _ | eo <;> rcases hm : c.meta with _ | mf
      · -- broken head: contradiction with an unchanged error list
        exfalso
        simp only [discoverFold, hh, Bool.false_eq_true, if_false, he, hm] at herr
        obtain ⟨delta, hdm⟩ := fold_errs_mono recurse hrecMono rest ip fs specs
          (errs ++ [missingMsg ip c.name none none])
        rw [hdm, List.append_assoc] at herr
        exact append_cons_ne errs _ _ herr
      · exfalso
        simp only [discoverFold, hh, Bool.false_eq_true, if_false, he, hm] at herr
        obtain ⟨delta, hdm⟩ := fold_errs_mono recurse hrecMono rest ip fs specs
          (errs ++ [missingMsg ip c.name none (some mf)])
        rw [hdm, List.append_assoc] at herr
        exact append_cons_ne errs _ _ herr
      · exfalso
        simp only [discoverFold, hh, Bool.false_eq_true, if_false, he, hm] at herr
        obtain ⟨delta, hdm⟩ := fold_errs_mono recurse hrecMono rest ip fs specs
          (errs ++ [missingMsg ip c.name (some eo) none])
        rw [hdm, List.append_assoc] at herr
        exact append_cons_ne errs _ _ herr
      · rcases hl : load_meta (fs ++ "/" ++ c.name ++ "/meta.yaml") mf with e | meta
        · exfalso
          simp only [discoverFold, hh, Bool.false_eq_true, if_false, he, hm, hl] at herr
          obtain ⟨delta, hdm⟩ := fold_errs_mono recurse hrecMono rest ip fs specs
            (errs ++ [e])
          rw [hdm, List.append_assoc] at herr
          exact append_cons_ne errs _ _ herr
        · -- valid head
          obtain ⟨delta1, h1⟩ := hrecMono (sortDirs c.subs) (ip ++ [c.name])
            (fs ++ "/" ++ c.name) errs
          simp only [discoverFold, hh, Bool.false_eq_true, if_false, he, hm, hl] at herr ⊢
          obtain ⟨delta2, h2⟩ := fold_errs_mono recurse hrecMono rest ip fs
            (dictInsert specs (_safe_name c.name)
              (mkCommandSpec c eo mf ip fs meta
                (recurse (sortDirs c.subs) (ip ++ [c.name]) (fs ++ "/" ++ c.name)
                  errs).1))
            (recurse (sortDirs c.subs) (ip ++ [c.name]) (fs ++ "/" ++ c.name) errs).2
          rw [h2, h1, List.append_assoc] at herr
          have hdeltas : delta1 ++ delta2 = [] := by
            have := congrArg List.length herr
            simp only [List.length_append] at this
            have h3 : delta1.length = 0 ∧ delta2.length = 0 := by omega
            rw [List.eq_nil_of_length_eq_zero h3.1, List.eq_nil_of_length_eq_zero h3.2]
            rfl
          obtain ⟨hd1, hd2⟩ := List.append_eq_nil.mp hdeltas
          subst hd1
          have hnres2 : (recurse (sortDirs c.subs) (ip ++ [c.name])
              (fs ++ "/" ++ c.name) errs).2 = errs := by
            rw [h1]
            simp
          have hrest2 : (discoverFold recurse rest ip fs
              (dictInsert specs (_safe_name c.name)
                (mkCommandSpec c eo mf ip fs meta
                  (recurse (sortDirs c.subs) (ip ++ [c.name]) (fs ++ "/" ++ c.name)
                    errs).1))
              (recurse (sortDirs c.subs) (ip ++ [c.name]) (fs ++ "/" ++ c.name)
                errs).2).2 =
              (recurse (sortDirs c.subs) (ip ++ [c.name]) (fs ++ "/" ++ c.name)
                errs).2 := by
            rw [h2, hnres2]
            subst hd2
            simp
          rcases List.mem_cons.mp hd with hdc | hdrest
          · -- the chain starts at the head directory
            subst hdc
            have hget : dictGet (discoverFold recurse rest ip fs
                (dictInsert specs (_safe_name d.name)
                  (mkCommandSpec d eo mf ip fs meta
                    (recurse (sortDirs d.subs) (ip ++ [d.name]) (fs ++ "/" ++ d.name)
                      errs).1))
                (recurse (sortDirs d.subs) (ip ++ [d.name]) (fs ++ "/" ++ d.name)
                  errs).2).1 (_safe_name d.name) =
                some (mkCommandSpec d eo mf ip fs meta
                  (recurse (sortDirs d.subs) (ip ++ [d.name]) (fs ++ "/" ++ d.name)
                    errs).1) := by
              rw [fold_get_preserved recurse rest ip fs _ _ _
                (fun c2 hc2 hceq => hhead_notin
                  (by rw [← hceq]; exact List.mem_map.mpr ⟨c2, hc2, rfl⟩))]
              exact dictGet_insert_self _ _ _
            cases us with
            | nil =>
              refine ⟨mkCommandSpec d eo mf ip fs meta
                (recurse (sortDirs d.subs) (ip ++ [d.name]) (fs ++ "/" ++ d.name)
                  errs).1, ?_, ?_⟩
              · simp only [List.map_cons, List.map_nil, subsAt, hget]
              · simp [mkCommandSpec, CommandSpec.imp_path]
            | cons u us2 =>
              obtain ⟨hsn, hnh, hmatch⟩ := hcc
              rcases hfc : findChild d u with _ | cu
              · rw [hfc] at hmatch
                exact absurd hmatch (by simp)
              · rw [hfc] at hmatch
                obtain ⟨hcmem, hcname⟩ := findChild_mem hfc
                obtain ⟨sp, hsub, hpath⟩ := hrecComp (sortDirs d.subs) (ip ++ [d.name])
                  (fs ++ "/" ++ d.name) errs cu us2 (mem_sortDirs hcmem)
                  (by rw [hcname]; exact hnh) (sortDirs_safe_nodup hsn) hmatch
                  (by simp at hlen; omega) hnres2
                have hne : (recurse (sortDirs d.subs) (ip ++ [d.name])
                    (fs ++ "/" ++ d.name) errs).1 ≠ [] := by
                  intro hnil
                  rw [hnil] at hsub
                  simp only [List.map_cons, subsAt_nil_none] at hsub
                  exact Option.noConfusion hsub
                refine ⟨sp, ?_, ?_⟩
                · simp only [List.map_cons, subsAt, hget]
                  have hslist : subsList (mkCommandSpec d eo mf ip fs meta
                      (recurse (sortDirs d.subs) (ip ++ [d.name]) (fs ++ "/" ++ d.name)
                        errs).1) =
                      (recurse (sortDirs d.subs) (ip ++ [d.name]) (fs ++ "/" ++ d.name)
                        errs).1 := by
                    rw [subsList_mkCommandSpec_eq, if_neg (by simpa using hne)]
                  rw [hslist]
                  rw [hcname] at hsub
                  simpa using hsub
                · rw [hpath, hcname]
                  simp
          · -- the chain starts at a later sibling
            have := ih ip fs
              (dictInsert specs (_safe_name c.name)
                (mkCommandSpec c eo mf ip fs meta
                  (recurse (sortDirs c.subs) (ip ++ [c.name]) (fs ++ "/" ++ c.name)
                    errs).1))
              (recurse (sortDirs c.subs) (ip ++ [c.name]) (fs ++ "/" ++ c.name)
                errs).2 d us hdrest hdh hntail hcc hlen
            exact this hrest2
    · -- hidden head: skipped
      simp only [discoverFold, hh, if_true] at herr ⊢
      rcases List.mem_cons.mp hd with hdc | hdrest
      · subst hdc
        rw [hdh] at hh
        exact absurd hh (by simp)
      · exact ih ip fs specs errs d us hdrest hdh hntail hcc hlen herr

theorem level_complete :
    ∀ (f : Nat) (dirs : List Dir) (ip : List String) (fs : String) (errs : List String)
      (d : Dir) (us : List String),
      d ∈ dirs → hiddenName d.name = false →
      (dirs.map (fun c => _safe_name (Dir.name c))).Nodup →
      chainCond d us → us.length + 1 ≤ f →
      (discoverLevel f dirs ip fs errs).2 = errs →
      ∃ sp, subsAt (discoverLevel f dirs ip fs errs).1
          ((d.name :: us).map _safe_name) = some sp ∧
        sp.imp_path = ip ++ (d.name :: us) := by
  intro f
  induction f with
  | zero =>
    intro dirs ip fs errs d us _ _ _ _ hlen
    omega
  | succ f ih =>
    intro dirs ip fs errs d us hd hdh hn hcc hlen herr
    exact fold_complete (discoverLevel f) f (level_errs_mono f) ih
      dirs ip fs [] errs d us hd hdh hn hcc (by omega) herr

theorem groups_complete (md : Nat) (rn : String) :
    ∀ (dirs : List Dir) (specs : List (String × CommandGroupSpec))
      (errs : List String) (g : Dir) (us : List String),
      g ∈ dirs → hiddenName g.name = false →
      (dirs.map (fun c => _safe_name (Dir.name c))).Nodup →
      chainCond g us → us ≠ [] → us.length ≤ md →
      (discoverGroups md rn dirs specs errs).2 = errs →
      ∃ sp, unitAt (discoverGroups md rn dirs specs errs).1
          ((g.name :: us).map _safe_name) = some sp ∧
        sp.imp_path = g.name :: us := by
  intro dirs
  induction dirs with
  | nil =>
    intro specs errs g us hg
    simp at hg
  | cons d rest ih =>
    intro specs errs g us hg hgh hn hcc hne hlen herr
    have hntail : (rest.map (fun c2 => _safe_name (Dir.name c2))).Nodup := by
      simp only [List.map_cons, List.nodup_cons] at hn
      exact hn.2
    have hhead_notin : _safe_name (Dir.name d) ∉
        rest.map (fun c2 => _safe_name (Dir.name c2)) := by
      simp only [List.map_cons, List.nodup_cons] at hn
      exact hn.1
    rcases hh : hiddenName d.name with _ | _
    · rcases hgm : load_group_meta (rn ++ "/" ++ d.name ++ "/meta.yaml") d.meta
        with e | gm
      · -- a group-meta error would survive to the end: impossible
        exfalso
        obtain ⟨delta1, h1⟩ := level_errs_mono md (sortDirs d.subs) [d.name]
          (rn ++ "/" ++ d.name) (errs ++ [e])
        have hS : (_discover_nested_commands d [d.name] (rn ++ "/" ++ d.name) 0 md
            (errs ++ [e])).2 = (errs ++ [e]) ++ delta1 := by
          simpa [_discover_nested_commands] using h1
        obtain ⟨delta2, h2⟩ := groups_errs_mono md rn rest
          (if ((_discover_nested_commands d [d.name] (rn ++ "/" ++ d.name) 0 md
              (errs ++ [e])).1.isEmpty && (groupEntry rn d).isNone) = true then specs
           else dictInsert specs (_safe_name d.name)
             (mkGroupSpec d rn none
               (_discover_nested_commands d [d.name] (rn ++ "/" ++ d.name) 0 md
                 (errs ++ [e])).1))
          ((_discover_nested_commands d [d.name] (rn ++ "/" ++ d.name) 0 md
            (errs ++ [e])).2)
        simp only [discoverGroups, hh, Bool.false_eq_true, if_false, hgm] at herr
        rw [h2, hS, List.append_assoc, List.append_assoc] at herr
        exact append_cons_ne errs _ _ herr
      · -- the head group's descriptor is fine
        obtain ⟨delta1, h1⟩ := level_errs_mono md (sortDirs d.subs) [d.name]
          (rn ++ "/" ++ d.name) errs
        have hS : (_discover_nested_commands d [d.name] (rn ++ "/" ++ d.name) 0 md
            errs).2 = errs ++ delta1 := by
          simpa [_discover_nested_commands] using h1
        obtain ⟨delta2, h2⟩ := groups_errs_mono md rn rest
          (if ((_discover_nested_commands d [d.name] (rn ++ "/" ++ d.name) 0 md
              errs).1.isEmpty && (groupEntry rn d).isNone) = true then specs
           else dictInsert specs (_safe_name d.name)
             (mkGroupSpec d rn gm
               (_discover_nested_commands d [d.name] (rn ++ "/" ++ d.name) 0 md
                 errs).1))
          ((_discover_nested_commands d [d.name] (rn ++ "/" ++ d.name) 0 md errs).2)
        simp only [discoverGroups, hh, Bool.false_eq_true, if_false, hgm] at herr ⊢
        rw [h2, hS, List.append_assoc] at herr
        have hdeltas : delta1 ++ delta2 = [] := by
          have := congrArg List.length herr
          simp only [List.length_append] at this
          have h3 : delta1.length = 0 ∧ delta2.length = 0 := by omega
          rw [List.eq_nil_of_length_eq_zero h3.1, List.eq_nil_of_length_eq_zero h3.2]
          rfl
        obtain ⟨hd1, hd2⟩ := List.append_eq_nil.mp hdeltas
        subst hd1
        have hnres2 : (_discover_nested_commands d [d.name] (rn ++ "/" ++ d.name)
            0 md errs).2 = errs := by
          rw [hS]
          simp
        have hrest2 : (discoverGroups md rn rest
            (if ((_discover_nested_commands d [d.name] (rn ++ "/" ++ d.name) 0 md
                errs).1.isEmpty && (groupEntry rn d).isNone) = true then specs
             else dictInsert specs (_safe_name d.name)
               (mkGroupSpec d rn gm
                 (_discover_nested_commands d [d.name] (rn ++ "/" ++ d.name) 0 md
                   errs).1))
            (_discover_nested_commands d [d.name] (rn ++ "/" ++ d.name) 0 md
              errs).2).2 =
            (_discover_nested_commands d [d.name] (rn ++ "/" ++ d.name) 0 md
              errs).2 := by
          rw [h2, hnres2]
          subst hd2
          simp
        rcases List.mem_cons.mp hg with hgd | hgrest
        · -- the invoked chain starts in this very group
          subst hgd
          cases us with
          | nil => exact absurd rfl hne
          | cons u us2 =>
            obtain ⟨hsn, hnh, hmatch⟩ := hcc
            rcases hfc : findChild g u with _ | cu
            · rw [hfc] at hmatch
              exact absurd hmatch (by simp)
            · rw [hfc] at hmatch
              obtain ⟨hcmem, hcname⟩ := findChild_mem hfc
              simp only [List.length_cons] at hlen
              have hlev2 : (discoverLevel md (sortDirs g.subs) [g.name]
                  (rn ++ "/" ++ g.name) errs).2 = errs := by
                simpa [_discover_nested_commands] using hnres2
              obtain ⟨sp, hsub, hpath⟩ := level_complete md (sortDirs g.subs)
                [g.name] (rn ++ "/" ++ g.name) errs cu us2 (mem_sortDirs hcmem)
                (by rw [hcname]; exact hnh) (sortDirs_safe_nodup hsn) hmatch
                (by omega) hlev2
              have hsub2 : subsAt (_discover_nested_commands g [g.name]
                  (rn ++ "/" ++ g.name) 0 md errs).1
                  ((cu.name :: us2).map _safe_name) = some sp := by
                simpa [_discover_nested_commands] using hsub
              have hne1 : (_discover_nested_commands g [g.name]
                  (rn ++ "/" ++ g.name) 0 md errs).1 ≠ [] := by
                intro hnil
                rw [hnil] at hsub2
                simp only [List.map_cons, subsAt_nil_none] at hsub2
                exact Option.noConfusion hsub2
              have hcond : ((_discover_nested_commands g [g.name]
                  (rn ++ "/" ++ g.name) 0 md errs).1.isEmpty &&
                  (groupEntry rn g).isNone) = false := by
                have : (_discover_nested_commands g [g.name]
                    (rn ++ "/" ++ g.name) 0 md errs).1.isEmpty = false := by
                  simpa [List.isEmpty_eq_true] using hne1
                rw [this]
                rfl
              have hget : dictGet (discoverGroups md rn rest
                  (if ((_discover_nested_commands g [g.name] (rn ++ "/" ++ g.name)
                      0 md errs).1.isEmpty && (groupEntry rn g).isNone) = true
                   then specs
                   else dictInsert specs (_safe_name g.name)
                     (mkGroupSpec g rn gm
                       (_discover_nested_commands g [g.name] (rn ++ "/" ++ g.name)
                         0 md errs).1))
                  (_discover_nested_commands g [g.name] (rn ++ "/" ++ g.name) 0 md
                    errs).2).1 (_safe_name g.name) =
                  some (mkGroupSpec g rn gm
                    (_discover_nested_commands g [g.name] (rn ++ "/" ++ g.name)
                      0 md errs).1) := by
                rw [groups_get_preserved md rn rest _ _ _
                  (fun c2 hc2 hceq => hhead_notin
                    (by rw [← hceq]; exact List.mem_map.mpr ⟨c2, hc2, rfl⟩))]
                rw [if_neg (by simp [hcond])]
                exact dictGet_insert_self _ _ _
              refine ⟨sp, ?_, ?_⟩
              · simp only [List.map_cons, unitAt, hget]
                simp only [mkGroupSpec]
                rw [hcname] at hsub2
                simpa using hsub2
              · rw [hpath, hcname]
                simp
        · -- the invoked chain starts in a later sibling group
          exact ih _ _ g us hgrest hgh hntail hcc hne hlen hrest2
    · simp only [discoverGroups, hh, if_true] at herr ⊢
      rcases List.mem_cons.mp hg with hgd | hgrest
      · subst hgd
        rw [hgh] at hh
        exact absurd hh (by simp)
      · exact ih specs errs g us hgrest hgh hntail hcc hne hlen herr

/-! ## Claim C4 (corrected) -/

theorem mkCommandSpec_isGroupIff (d : Dir) (eo : ExportObj) (mf : MetaFile)
    (ip : List String) (fs : String) (meta : MetaRecord)
    (nested : List (String × CommandSpec)) :
    isGroupIff (mkCommandSpec d eo mf ip fs meta nested) := by
  simp only [isGroupIff, mkCommandSpec, CommandSpec.is_group, CommandSpec.subcommands]
  rcases hn : nested.isEmpty with _ | _
  · have hne : nested ≠ [] := by
      intro h
      rw [h] at hn
      exact absurd hn (by simp)
    simp [hn, hne]
  · have hnil : nested = [] := by
      cases nested with
      | nil => rfl
      | cons a l => simp at hn
    subst hnil
    simp

/-- C4 counterexample: `treeCollide2` is a valid unit tree (discovery
succeeds, no structural errors) whose group `h` holds two valid leaf
directories, `p-q` and `p_q`, each with both a descriptor and an entry
file.  Yet the output tree holds only one child under `h`: the later
sibling `p_q` overwrote the mapping entry, so the valid leaf `h/p-q` does
not appear in the output tree (the node reachable at its display path
carries import path `["h", "p_q"]`). -/
theorem c4_counterexample :
    discover_specs (some treeCollide2) defaultMaxDepth = .ok gsCollide2 ∧
    treeCollide2.subs.map (fun u => u.subs.length) = [2] ∧
    (∀ u ∈ treeCollide2.subs, ∀ c ∈ u.subs,
      c.entry.isSome = true ∧ c.meta.isSome = true) ∧
    (dictGet gsCollide2 "h").map (fun g => g.subcommands.map Prod.fst) =
      some ["p-q"] ∧
    (unitAt gsCollide2 ["h", "p-q"]).map CommandSpec.imp_path =
      some ["h", "p_q"] :=
  ⟨rfl, rfl, by decide, by decide, by decide⟩

/-- C4 (amended): the classification half of the claim is exact — in every
successful scan, every discovered node has `is_group = true` iff the
recursion below it yielded at least one valid nested unit (a non-empty
`subcommands` mapping).  The completeness half holds only for
collision-free trees: when a chain of non-hidden on-disk directories below
a non-hidden top-level group has collision-free sibling display names at
every level passed through (`chainCond`), is structurally valid all the
way down, and fits within the depth cap, then a successful scan's output
tree holds a node at the chain's display path carrying the chain's import
path.  Without the collision-freedom hypothesis a valid leaf can be
absent (`c4_counterexample`). -/
theorem c4_classification_and_guarded_completeness :
    ∀ (t : Dir) (md : Nat) (gs : List (String × CommandGroupSpec)),
      discover_specs (some t) md = .ok gs →
      (∀ p ∈ gs, ∀ q ∈ p.2.subcommands, SpecTreeAll isGroupIff q.2) ∧
      (∀ (g : Dir) (us : List String),
        g ∈ t.subs → hiddenName (Dir.name g) = false →
        (t.subs.map (fun c => _safe_name (Dir.name c))).Nodup →
        chainCond g us → us ≠ [] → us.length ≤ md →
        ∃ sp, unitAt gs ((g.name :: us).map _safe_name) = some sp ∧
          sp.imp_path = g.name :: us) := by
  intro t md gs h
  refine ⟨?_, ?_⟩
  · intro p hp q hq
    rw [discover_ok_groups h] at hp
    exact groups_subs_all (fun l => ∀ q2 ∈ l, SpecTreeAll isGroupIff q2.2)
      (fun f dirs ip fs errs => level_tree_all isGroupIff
        (fun d eo mf ip2 fs2 meta nested _ _ =>
          mkCommandSpec_isGroupIff d eo mf ip2 fs2 meta nested)
        f dirs ip fs errs)
      md t.name (sortDirs t.subs) [] [] (by intro p2 hp2; simp at hp2) p hp q hq
  · intro g us hg hgh hn hcc hne hlen
    have herr : (discoverGroups md t.name (sortDirs t.subs) [] []).2 = [] := by
      simp only [discover_specs] at h
      split at h
      · next hc => exact List.isEmpty_eq_true.mp hc
      · exact absurd h (by simp)
    rw [discover_ok_groups h]
    exact groups_complete md t.name (sortDirs t.subs) [] [] g us
      (mem_sortDirs hg) hgh (sortDirs_safe_nodup hn) hcc hne hlen herr

/-- C4 witness: in `treeAlpha` every discovered node satisfies the
classification invariant, and the collision-free chain `alpha/beta` is
discovered at its display path with its import path. -/
theorem c4_witness :
    (∀ p ∈ groupsAlpha, ∀ q ∈ p.2.subcommands, SpecTreeAll isGroupIff q.2) ∧
    (∃ sp, unitAt groupsAlpha ["alpha", "beta"] = some sp ∧
      sp.imp_path = ["alpha", "beta"]) := by
  have h := c4_classification_and_guarded_completeness treeAlpha defaultMaxDepth
    groupsAlpha rfl
  exact ⟨h.1, h.2 dirAlpha ["beta"] (List.mem_cons_self _ _) (by decide) (by decide)
    ⟨by simp only [safeNodupSubs]; decide, by decide, trivial⟩ (by decide) (by decide)⟩

/-! ## Help listing infrastructure (claim C8) -/

theorem charsLe_trans :
    ∀ a b c : List Char, charsLe a b = true → charsLe b c = true →
      charsLe a c = true := by
  intro a
  induction a with
  | nil =>
    intro b c _ _
    rfl
  | cons x xs ih =>
    intro b c hab hbc
    cases b with
    | nil => simp [charsLe] at hab
    | cons y ys =>
      cases c with
      | nil => simp [charsLe] at hbc
      | cons z zs =>
        simp only [charsLe] at hab hbc ⊢
        rcases Nat.lt_trichotomy x.toNat y.toNat with h1 | h1 | h1
        · rcases Nat.lt_trichotomy y.toNat z.toNat with h2 | h2 | h2
          · rw [if_pos (by omega)]
          · rw [if_pos (by omega)]
          · rw [if_neg (by omega), if_pos (by omega)] at hbc
            exact absurd hbc (by simp)
        · rw [if_neg (by omega), if_neg (by omega)] at hab
          rcases Nat.lt_trichotomy y.toNat z.toNat with h2 | h2 | h2
          · rw [if_pos (by omega)]
          · rw [if_neg (by omega), if_neg (by omega)] at hbc
            rw [if_neg (by omega), if_neg (by omega)]
            exact ih ys zs hab hbc
          · rw [if_neg (by omega), if_pos (by omega)] at hbc
            exact absurd hbc (by simp)
        · rw [if_neg (by omega), if_pos (by omega)] at hab
          exact absurd hab (by simp)

theorem charsLe_total :
    ∀ a b : List Char, charsLe a b = true ∨ charsLe b a = true := by
  intro a
  induction a with
  | nil =>
    intro b
    left
    rfl
  | cons x xs ih =>
    intro b
    cases b with
    | nil =>
      right
      rfl
    | cons y ys =>
      simp only [charsLe]
      rcases Nat.lt_trichotomy x.toNat y.toNat with h1 | h1 | h1
      · left
        rw [if_pos (by omega)]
      · rcases ih ys with h | h
        · left
          rw [if_neg (by omega), if_neg (by omega)]
          exact h
        · right
          rw [if_neg (by omega), if_neg (by omega)]
          exact h
      · right
        rw [if_pos (by omega)]

theorem strle_trans (a b c : String) (hab : strle a b = true)
    (hbc : strle b c = true) : strle a c = true :=
  charsLe_trans a.data b.data c.data hab hbc

theorem strle_total (a b : String) : strle a b = true ∨ strle b a = true :=
  charsLe_total a.data b.data

theorem tagLe_trans (a b c : String) (hab : tagLe a b = true)
    (hbc : tagLe b c = true) : tagLe a c = true := by
  simp only [tagLe] at hab hbc ⊢
  by_cases ha : a = "Commands"
  · rw [if_pos ha]
  · rw [if_neg ha] at hab ⊢
    by_cases hb : b = "Commands"
    · rw [if_pos hb] at hab
      exact absurd hab (by simp)
    · rw [if_neg hb] at hab
      rw [if_neg hb] at hbc
      by_cases hc : c = "Commands"
      · rw [if_pos hc] at hbc
        exact absurd hbc (by simp)
      · rw [if_neg hc] at hbc ⊢
        exact strle_trans a b c hab hbc

theorem tagLe_total (a b : String) : tagLe a b = true ∨ tagLe b a = true := by
  simp only [tagLe]
  by_cases ha : a = "Commands"
  · left
    rw [if_pos ha]
  · by_cases hb : b = "Commands"
    · right
      rw [if_pos hb]
    · rcases strle_total a b with h | h
      · left
        rw [if_neg ha, if_neg hb]
        exact h
      · right
        rw [if_neg hb, if_neg ha]
        exact h

theorem mem_insertBy {α : Type} (le : α → α → Bool) (x : α) (l : List α) (z : α) :
    z ∈ insertBy le x l ↔ z = x ∨ z ∈ l := by
  rw [(insertBy_perm le x l).mem_iff]
  simp

theorem pairwise_insertBy {α : Type} (le : α → α → Bool)
    (htot : ∀ a b, le a b = true ∨ le b a = true)
    (htrans : ∀ a b c, le a b = true → le b c = true → le a c = true)
    (x : α) :
    ∀ l : List α, l.Pairwise (fun a b => le a b = true) →
      (insertBy le x l).Pairwise (fun a b => le a b = true) := by
  intro l
  induction l with
  | nil =>
    intro _
    simp [insertBy]
  | cons y ys ih =>
    intro h
    obtain ⟨hy, hys⟩ := List.pairwise_cons.mp h
    simp only [insertBy]
    split
    · next hxy =>
      refine List.pairwise_cons.mpr ⟨?_, h⟩
      intro z hz
      rcases List.mem_cons.mp hz with hz | hz
      · subst hz
        exact hxy
      · exact htrans x y z hxy (hy z hz)
    · next hxy =>
      have hyx : le y x = true := by
        rcases htot x y with h2 | h2
        · exact absurd h2 hxy
        · exact h2
      refine List.pairwise_cons.mpr ⟨?_, ih hys⟩
      intro z hz
      rcases (mem_insertBy le x ys z).mp hz with hz | hz
      · subst hz
        exact hyx
      · exact hy z hz

theorem pairwise_sortBy {α : Type} (le : α → α → Bool)
    (htot : ∀ a b, le a b = true ∨ le b a = true)
    (htrans : ∀ a b c, le a b = true → le b c = true → le a c = true) :
    ∀ l : List α, (sortBy le l).Pairwise (fun a b => le a b = true) := by
  intro l
  induction l with
  | nil => simp [sortBy]
  | cons x xs ih =>
    simp only [sortBy]
    exact pairwise_insertBy le htot htrans x _ ih

theorem pairwise_conj {α : Type} {R S : α → α → Prop} :
    ∀ {l : List α}, l.Pairwise R → l.Pairwise S →
      l.Pairwise (fun a b => R a b ∧ S a b) := by
  intro l
  induction l with
  | nil =>
    intro _ _
    exact List.Pairwise.nil
  | cons x xs ih =>
    intro h1 h2
    obtain ⟨ha, hb⟩ := List.pairwise_cons.mp h1
    obtain ⟨hc, hd⟩ := List.pairwise_cons.mp h2
    exact List.pairwise_cons.mpr ⟨fun z hz => ⟨ha z hz, hc z hz⟩, ih hb hd⟩

theorem pairwise_filterMap_fst {β : Type} {R : String → String → Prop}
    (f : String → Option (String × β))
    (hf : ∀ n r, f n = some r → r.1 = n) :
    ∀ ns : List String, ns.Pairwise R →
      ((ns.filterMap f).map Prod.fst).Pairwise R := by
  intro ns
  induction ns with
  | nil =>
    intro _
    simp
  | cons n ns2 ih =>
    intro h
    obtain ⟨hn, hns⟩ := List.pairwise_cons.mp h
    rcases hfn : f n with _ | r
    · simp only [List.filterMap_cons, hfn]
      exact ih hns
    · simp only [List.filterMap_cons, hfn, List.map_cons]
      refine List.pairwise_cons.mpr ⟨?_, ih hns⟩
      intro z hz
      rw [hf n r hfn]
      obtain ⟨r2, hr2, hz2⟩ := List.mem_map.mp hz
      obtain ⟨n2, hn2, hfn2⟩ := List.mem_filterMap.mp hr2
      rw [← hz2, hf n2 r2 hfn2]
      exact hn n2 hn2

theorem dictAppend_get_self {β : Type} :
    ∀ (acc : List (String × List β)) (k : String) (v : β),
      dictGet (dictAppend acc k v) k = some ((dictGet acc k).getD [] ++ [v]) := by
  intro acc
  induction acc with
  | nil =>
    intro k v
    simp [dictAppend, dictGet]
  | cons p rest ih =>
    intro k v
    obtain ⟨k1, l1⟩ := p
    simp only [dictAppend]
    by_cases h : k1 = k
    · subst h
      simp [dictGet]
    · rw [if_neg h]
      simp only [dictGet, if_neg h]
      exact ih k v

theorem dictAppend_get_other {β : Type} :
    ∀ (acc : List (String × List β)) (k k2 : String) (v : β), ¬ k = k2 →
      dictGet (dictAppend acc k v) k2 = dictGet acc k2 := by
  intro acc
  induction acc with
  | nil =>
    intro k k2 v h
    simp [dictAppend, dictGet, h]
  | cons p rest ih =>
    intro k k2 v h
    obtain ⟨k1, l1⟩ := p
    simp only [dictAppend]
    by_cases h1 : k1 = k
    · subst h1
      rw [if_pos rfl]
      simp [dictGet, h]
    · rw [if_neg h1]
      simp only [dictGet]
      by_cases h2 : k1 = k2
      · simp [h2]
      · simp only [if_neg h2]
        exact ih k k2 v h

theorem dictAppend_keys_mem {β : Type} :
    ∀ (acc : List (String × List β)) (k : String) (v : β) (z : String),
      z ∈ (dictAppend acc k v).map Prod.fst → z ∈ acc.map Prod.fst ∨ z = k := by
  intro acc
  induction acc with
  | nil =>
    intro k v z hz
    simp [dictAppend] at hz
    right
    exact hz
  | cons p rest ih =>
    intro k v z hz
    obtain ⟨k1, l1⟩ := p
    simp only [dictAppend] at hz
    by_cases h : k1 = k
    · rw [if_pos h] at hz
      simp only [List.map_cons, List.mem_cons] at hz
      rcases hz with hz | hz
      · left
        simp [hz]
      · left
        simp only [List.map_cons, List.mem_cons]
        right
        exact hz
    · rw [if_neg h] at hz
      simp only [List.map_cons, List.mem_cons] at hz
      rcases hz with hz | hz
      · left
        simp [hz]
      · rcases ih k v z hz with h2 | h2
        · left
          simp only [List.map_cons, List.mem_cons]
          right
          exact h2
        · right
          exact h2

theorem dictAppend_keys_nodup {β : Type} :
    ∀ (acc : List (String × List β)) (k : String) (v : β),
      (acc.map Prod.fst).Nodup → ((dictAppend acc k v).map Prod.fst).Nodup := by
  intro acc
  induction acc with
  | nil =>
    intro k v _
    simp [dictAppend]
  | cons p rest ih =>
    intro k v hn
    obtain ⟨k1, l1⟩ := p
    simp only [List.map_cons, List.nodup_cons] at hn
    obtain ⟨hk1, hrest⟩ := hn
    simp only [dictAppend]
    by_cases h : k1 = k
    · rw [if_pos h]
      simp only [List.map_cons, List.nodup_cons]
      exact ⟨hk1, hrest⟩
    · rw [if_neg h]
      simp only [List.map_cons, List.nodup_cons]
      refine ⟨?_, ih k v hrest⟩
      intro hmem
      rcases dictAppend_keys_mem rest k v k1 hmem with h2 | h2
      · exact hk1 h2
      · exact h h2

theorem gather_rows_char
    (getRow : String → Except String (Option (String × (String × String)))) :
    ∀ (ns : List String) (acc buckets : List (String × List (String × String))),
      gatherRows getRow ns acc = .ok buckets →
      (∀ tag, (dictGet buckets tag).getD [] =
        (dictGet acc tag).getD [] ++ ns.filterMap (fun n =>
          match getRow n with
          | .ok (some (t, r)) => if t = tag then some r else none
          | _ => none)) ∧
      ((acc.map Prod.fst).Nodup → (buckets.map Prod.fst).Nodup) := by
  intro ns
  induction ns with
  | nil =>
    intro acc buckets h
    simp only [gatherRows, Except.ok.injEq] at h
    subst h
    exact ⟨fun tag => by simp, fun hn => hn⟩
  | cons n ns2 ih =>
    intro acc buckets h
    simp only [gatherRows] at h
    rcases hg : getRow n with e | v
    · simp only [hg] at h
      exact absurd h (by simp)
    · cases v with
      | none =>
        simp only [hg] at h
        obtain ⟨h1, h2⟩ := ih acc buckets h
        refine ⟨fun tag => ?_, h2⟩
        rw [h1 tag]
        simp [hg]
      | some tr =>
        obtain ⟨t, r⟩ := tr
        simp only [hg] at h
        obtain ⟨h1, h2⟩ := ih (dictAppend acc t r) buckets h
        refine ⟨fun tag => ?_, fun hn => h2 (dictAppend_keys_nodup acc t r hn)⟩
        rw [h1 tag]
        by_cases htag : t = tag
        · subst htag
          rw [dictAppend_get_self]
          simp [hg, List.append_assoc]
        · rw [dictAppend_get_other acc t tag r htag]
          simp [hg, htag]

theorem emitSections_mem {buckets : List (String × List (String × String))}
    {sec : String × List (String × String)} (h : sec ∈ emitSections buckets) :
    dictGet buckets sec.1 = some sec.2 ∧ sec.2 ≠ [] := by
  obtain ⟨g, hg, hF⟩ := List.mem_filterMap.mp h
  rcases hd : dictGet buckets g with _ | rows
  · simp only [hd] at hF
    exact absurd hF (by simp)
  · simp only [hd] at hF
    rcases hre : rows.isEmpty with _ | _
    · simp only [hre, Bool.false_eq_true, if_false, Option.some.injEq] at hF
      rw [← hF]
      refine ⟨hd, ?_⟩
      cases rows with
      | nil => simp at hre
      | cons a l => simp
    · simp only [hre, if_true] at hF
      exact absurd hF (by simp)

theorem emitSections_mem_of {buckets : List (String × List (String × String))}
    {t : String} {rows : List (String × String)}
    (hd : dictGet buckets t = some rows) (hne : rows ≠ []) :
    (t, rows) ∈ emitSections buckets := by
  have hie : rows.isEmpty = false := by
    cases rows with
    | nil => exact absurd rfl hne
    | cons a l => rfl
  refine List.mem_filterMap.mpr ⟨t, ?_, ?_⟩
  · rw [(sortBy_perm tagLe (buckets.map (fun p => p.1))).mem_iff]
    exact List.mem_map.mpr ⟨(t, rows), mem_of_dictGet hd, rfl⟩
  · simp only [hd, hie, Bool.false_eq_true, if_false]

theorem pipeline_sections
    (getRow : String → Except String (Option (String × (String × String))))
    (names : List String)
    (hf : ∀ n t row, getRow n = .ok (some (t, row)) → row.1 = n) :
    ∀ buckets, gatherRows getRow (sortStrings names) [] = .ok buckets →
      (((emitSections buckets).map Prod.fst).Pairwise
        (fun a b => tagLe a b = true ∧ ¬ a = b)) ∧
      (∀ sec ∈ emitSections buckets,
        (sec.2.map Prod.fst).Pairwise (fun a b => strle a b = true)) ∧
      (∀ sec ∈ emitSections buckets, ∀ row ∈ sec.2,
        ∃ n, n ∈ names ∧ getRow n = .ok (some (sec.1, row)) ∧ row.1 = n) ∧
      (∀ n t row, n ∈ names → getRow n = .ok (some (t, row)) →
        ∃ rows, (t, rows) ∈ emitSections buckets ∧ row ∈ rows) := by
  intro buckets hgather
  obtain ⟨hchar, hnodup⟩ :=
    gather_rows_char getRow (sortStrings names) [] buckets hgather
  have hkeys : (buckets.map Prod.fst).Nodup := hnodup (by simp)
  have hrows_eq : ∀ tag, (dictGet buckets tag).getD [] =
      (sortStrings names).filterMap (fun n =>
        match getRow n with
        | .ok (some (t, r)) => if t = tag then some r else none
        | _ => none) := by
    intro tag
    have := hchar tag
    simpa [dictGet] using this
  have hFfst : ∀ (g : String) (sec : String × List (String × String)),
      (match dictGet buckets g with
       | some rows => if rows.isEmpty then none else some (g, rows)
       | none => none) = some sec → sec.1 = g := by
    intro g sec hsec
    rcases hd : dictGet buckets g with _ | rows
    · simp [hd] at hsec
    · simp only [hd] at hsec
      rcases hre : rows.isEmpty with _ | _
      · simp only [hre, Bool.false_eq_true, if_false, Option.some.injEq] at hsec
        rw [← hsec]
      · simp [hre] at hsec
  refine ⟨?_, ?_, ?_, ?_⟩
  · have hsorted : (sortBy tagLe (buckets.map (fun p => p.1))).Pairwise
        (fun a b => tagLe a b = true) :=
      pairwise_sortBy tagLe tagLe_total tagLe_trans _
    have hnd2 : (sortBy tagLe (buckets.map (fun p => p.1))).Nodup :=
      ((sortBy_perm tagLe _).nodup_iff).mpr hkeys
    have hconj := pairwise_conj hsorted hnd2
    simp only [emitSections]
    exact pairwise_filterMap_fst _ hFfst _ hconj
  · intro sec hsec
    obtain ⟨hd, hne⟩ := emitSections_mem hsec
    have hrows : sec.2 = (sortStrings names).filterMap (fun n =>
        match getRow n with
        | .ok (some (t, r)) => if t = sec.1 then some r else none
        | _ => none) := by
      have := hrows_eq sec.1
      rw [hd] at this
      simpa using this
    rw [hrows]
    refine pairwise_filterMap_fst _ ?_ _
      (pairwise_sortBy strle strle_total strle_trans _)
    intro n r hr
    rcases hg : getRow n with e | v
    · simp [hg] at hr
    · rcases v with _ | ⟨t, r0⟩
      · simp [hg] at hr
      · simp only [hg] at hr
        by_cases ht : t = sec.1
        · rw [if_pos ht] at hr
          have hr0 : r0 = r := by simpa using hr
          subst hr0
          subst ht
          exact hf n sec.1 r0 hg
        · rw [if_neg ht] at hr
          exact absurd hr (by simp)
  · intro sec hsec row hrow
    obtain ⟨hd, hne⟩ := emitSections_mem hsec
    have hrows := hrows_eq sec.1
    rw [hd] at hrows
    simp only [Option.getD_some] at hrows
    rw [hrows] at hrow
    obtain ⟨n, hn, hfn⟩ := List.mem_filterMap.mp hrow
    rcases hg : getRow n with e | v
    · simp [hg] at hfn
    · rcases v with _ | ⟨t, r0⟩
      · simp [hg] at hfn
      · simp only [hg] at hfn
        by_cases ht : t = sec.1
        · rw [if_pos ht] at hfn
          have hr0 : r0 = row := by simpa using hfn
          subst hr0
          subst ht
          refine ⟨n, ?_, hg, hf n sec.1 r0 hg⟩
          exact ((sortBy_perm strle names).mem_iff).mp hn
        · rw [if_neg ht] at hfn
          exact absurd hfn (by simp)
  · intro n t row hn hg
    have hrows := hrows_eq t
    have hmem : row ∈ (dictGet buckets t).getD [] := by
      rw [hrows]
      refine List.mem_filterMap.mpr ⟨n, ?_, ?_⟩
      · exact ((sortBy_perm strle names).mem_iff).mpr hn
      · simp only [hg]
        simp
    rcases hd : dictGet buckets t with _ | rows
    · rw [hd] at hmem
      simp at hmem
    · rw [hd] at hmem
      simp only [Option.getD_some] at hmem
      exact ⟨rows, emitSections_mem_of hd (List.ne_nil_of_mem hmem), hmem⟩

theorem childRow_some {specs : List (String × CommandSpec)} {n t : String}
    {row : String × String}
    (h : childRow specs n = .ok (some (t, row))) :
    ∃ sp cc, dictGet specs n = some sp ∧ (load_click_command sp).2 = .ok cc ∧
      (ccHidden cc).truthy = false ∧ t = sp.help_group ∧
      row = (n, ccShortHelp cc) := by
  simp only [childRow] at h
  rcases hd : dictGet specs n with _ | sp
  · simp only [hd] at h
    exact absurd h (by simp)
  · simp only [hd] at h
    rcases hl : (load_click_command sp).2 with e | cc
    · simp only [hl] at h
      exact absurd h (by simp)
    · simp only [hl] at h
      rcases hh : (ccHidden cc).truthy with _ | _
      · simp only [hh, Bool.false_eq_true, if_false, Except.ok.injEq,
          Option.some.injEq, Prod.mk.injEq] at h
        exact ⟨sp, cc, rfl, hl, hh, h.1.symm, h.2.symm⟩
      · simp only [hh, if_true] at h
        exact absurd h (by simp)

theorem childRow_some_of {specs : List (String × CommandSpec)} {n : String}
    {sp : CommandSpec} {cc : CC}
    (hd : dictGet specs n = some sp) (hl : (load_click_command sp).2 = .ok cc)
    (hh : (ccHidden cc).truthy = false) :
    childRow specs n = .ok (some (sp.help_group, (n, ccShortHelp cc))) := by
  simp only [childRow, hd, hl, hh, Bool.false_eq_true, if_false]

theorem rootRow_some {gspecs : List (String × CommandGroupSpec)} {n t : String}
    {row : String × String}
    (h : rootRow gspecs n = .ok (some (t, row))) :
    ∃ gs cc, dictGet gspecs n = some gs ∧
      (root_get_command gspecs n).2 = some (.ok cc) ∧
      (ccHidden cc).truthy = false ∧ t = gs.help_group ∧
      row = (n, ccShortHelp cc) := by
  simp only [rootRow] at h
  rcases hr : (root_get_command gspecs n).2 with _ | v
  · simp only [hr] at h
    exact absurd h (by simp)
  · rcases v with e | cc
    · simp only [hr] at h
      exact absurd h (by simp)
    · simp only [hr] at h
      rcases hh : (ccHidden cc).truthy with _ | _
      · simp only [hh, Bool.false_eq_true, if_false] at h
        rcases hd : dictGet gspecs n with _ | gs
        · simp only [hd] at h
          exact absurd h (by simp)
        · simp only [hd, Except.ok.injEq, Option.some.injEq, Prod.mk.injEq] at h
          exact ⟨gs, cc, rfl, rfl, hh, h.1.symm, h.2.symm⟩
      · simp only [hh, if_true] at h
        exact absurd h (by simp)

theorem rootRow_some_of {gspecs : List (String × CommandGroupSpec)} {n : String}
    {gs : CommandGroupSpec} {cc : CC}
    (hd : dictGet gspecs n = some gs)
    (hr : (root_get_command gspecs n).2 = some (.ok cc))
    (hh : (ccHidden cc).truthy = false) :
    rootRow gspecs n = .ok (some (gs.help_group, (n, ccShortHelp cc))) := by
  simp only [rootRow, hr, hh, Bool.false_eq_true, if_false, hd]

theorem root_get_command_some {gspecs : List (String × CommandGroupSpec)}
    {n : String} {gs : CommandGroupSpec} (hd : dictGet gspecs n = some gs) :
    (root_get_command gspecs n).2 ≠ none := by
  simp only [root_get_command, hd]
  split
  · simp
  · split
    · split
      · split <;> simp
      · split <;> simp
    · simp

/-! ## Claim C8 -/

/-- C8: help listing order and visibility.  For every node (the lazy group
wrappers rendering a spec dict, and the root command rendering the group
dict), help rendering groups the visible entries by their help-group tag
with the tag `"Commands"` first and the remaining tags in alphabetical
order; within each tag the rows are in alphabetical order by name; every
listed row comes from an entry whose loaded command is not hidden, carries
that entry's tag and short help, and conversely every entry that loads to
a non-hidden command is listed under its tag; entries whose normalized
hidden flag is true are excluded from the listing but remain resolvable by
exact name (lookup does not consult the hidden flag). -/
theorem c8_help_listing_order_and_visibility :
    (∀ (specs : List (String × CommandSpec))
       (sections : List (String × List (String × String))),
      format_commands specs = .ok sections →
      ((sections.map Prod.fst).Pairwise
        (fun a b => tagLe a b = true ∧ ¬ a = b)) ∧
      (∀ sec ∈ sections,
        (sec.2.map Prod.fst).Pairwise (fun a b => strle a b = true)) ∧
      (∀ sec ∈ sections, ∀ row ∈ sec.2, ∃ sp cc,
        dictGet specs row.1 = some sp ∧ (load_click_command sp).2 = .ok cc ∧
        (ccHidden cc).truthy = false ∧ sec.1 = sp.help_group ∧
        row.2 = ccShortHelp cc) ∧
      (∀ (n : String) (sp : CommandSpec) (cc : CC),
        dictGet specs n = some sp → (load_click_command sp).2 = .ok cc →
        (ccHidden cc).truthy = false →
        ∃ rows, (sp.help_group, rows) ∈ sections ∧
          (n, ccShortHelp cc) ∈ rows)) ∧
    (∀ (nm : String) (sh hp : Option String) (hd : YVal)
       (specs : List (String × CommandSpec)) (n : String) (sp : CommandSpec),
      dictGet specs n = some sp →
      ccGet (.lazyGroup nm sh hp hd specs) n = some (load_click_command sp)) ∧
    (∀ (gspecs : List (String × CommandGroupSpec))
       (sections : List (String × List (String × String))),
      root_format_commands gspecs = .ok sections →
      ((sections.map Prod.fst).Pairwise
        (fun a b => tagLe a b = true ∧ ¬ a = b)) ∧
      (∀ sec ∈ sections,
        (sec.2.map Prod.fst).Pairwise (fun a b => strle a b = true)) ∧
      (∀ sec ∈ sections, ∀ row ∈ sec.2, ∃ gs cc,
        dictGet gspecs row.1 = some gs ∧
        (root_get_command gspecs row.1).2 = some (.ok cc) ∧
        (ccHidden cc).truthy = false ∧ sec.1 = gs.help_group ∧
        row.2 = ccShortHelp cc) ∧
      (∀ (n : String) (gs : CommandGroupSpec) (cc : CC),
        dictGet gspecs n = some gs →
        (root_get_command gspecs n).2 = some (.ok cc) →
        (ccHidden cc).truthy = false →
        ∃ rows, (gs.help_group, rows) ∈ sections ∧
          (n, ccShortHelp cc) ∈ rows)) ∧
    (∀ (gspecs : List (String × CommandGroupSpec)) (n : String)
       (gs : CommandGroupSpec),
      dictGet gspecs n = some gs → (root_get_command gspecs n).2 ≠ none) := by
  refine ⟨?_, ?_, ?_, ?_⟩
  · intro specs sections h
    simp only [format_commands] at h
    rcases hg : gatherRows (childRow specs)
        (sortStrings (specs.map (fun p => p.1))) [] with e | buckets
    · simp only [hg] at h
      exact absurd h (by simp)
    · simp only [hg, Except.ok.injEq] at h
      subst h
      obtain ⟨hP1, hP2, hP3, hP4⟩ := pipeline_sections (childRow specs)
        (specs.map (fun p => p.1))
        (fun n t row hr => by
          obtain ⟨sp, cc, _, _, _, _, hrow⟩ := childRow_some hr
          rw [hrow])
        buckets hg
      refine ⟨hP1, hP2, ?_, ?_⟩
      · intro sec hsec row hrow
        obtain ⟨n, _, hr, hfst⟩ := hP3 sec hsec row hrow
        obtain ⟨sp, cc, hd, hl, hh, ht, hrw⟩ := childRow_some hr
        refine ⟨sp, cc, ?_, hl, hh, ht, ?_⟩
        · rw [hfst]
          exact hd
        · rw [hrw]
      · intro n sp cc hd hl hh
        have hn : n ∈ specs.map (fun p => p.1) :=
          List.mem_map.mpr ⟨(n, sp), mem_of_dictGet hd, rfl⟩
        exact hP4 n sp.help_group (n, ccShortHelp cc) hn
          (childRow_some_of hd hl hh)
  · intro nm sh hp hd specs n sp hget
    simp only [ccGet, hget]
  · intro gspecs sections h
    simp only [root_format_commands] at h
    rcases hg : gatherRows (rootRow gspecs)
        (sortStrings (gspecs.map (fun p => p.1))) [] with e | buckets
    · simp only [hg] at h
      exact absurd h (by simp)
    · simp only [hg, Except.ok.injEq] at h
      subst h
      obtain ⟨hP1, hP2, hP3, hP4⟩ := pipeline_sections (rootRow gspecs)
        (gspecs.map (fun p => p.1))
        (fun n t row hr => by
          obtain ⟨gs, cc, _, _, _, _, hrow⟩ := rootRow_some hr
          rw [hrow])
        buckets hg
      refine ⟨hP1, hP2, ?_, ?_⟩
      · intro sec hsec row hrow
        obtain ⟨n, _, hr, hfst⟩ := hP3 sec hsec row hrow
        obtain ⟨gs, cc, hd, hrc, hh, ht, hrw⟩ := rootRow_some hr
        refine ⟨gs, cc, ?_, ?_, hh, ht, ?_⟩
        · rw [hfst]
          exact hd
        · rw [hfst]
          exact hrc
        · rw [hrw]
      · intro n gs cc hd hrc hh
        have hn : n ∈ gspecs.map (fun p => p.1) :=
          List.mem_map.mpr ⟨(n, gs), mem_of_dictGet hd, rfl⟩
        exact hP4 n gs.help_group (n, ccShortHelp cc) hn
          (rootRow_some_of hd hrc hh)
  · intro gspecs n gs hd
    exact root_get_command_some hd

/-- C8 witness: on `treeHelp` the lazy wrapper's rendering puts the
`"Commands"` section before `"Tools"`, lists the visible entry `aaa` with
its short help under its `Tools` tag, keeps the hidden entry `hid`
resolvable by exact name, and the root rendering lists the group `grp`
under `"Commands"`. -/
theorem c8_witness :
    ((([("Commands", [("bbb", "Bbb.")]), ("Tools", [("aaa", "Aaa.")])] :
        List (String × List (String × String))).map Prod.fst).Pairwise
      (fun a b => tagLe a b = true ∧ ¬ a = b)) ∧
    (∃ rows, ("Tools", rows) ∈ ([("Commands", [("bbb", "Bbb.")]),
        ("Tools", [("aaa", "Aaa.")])] :
        List (String × List (String × String))) ∧ ("aaa", "Aaa.") ∈ rows) ∧
    ccGet (.lazyGroup "grp" none none (.ybool false) specsHelp) "hid" =
      some (load_click_command ((dictGet specsHelp "hid").getD dummySpec)) ∧
    (∃ rows, ("Commands", rows) ∈ ([("Commands", [("grp", "")])] :
        List (String × List (String × String))) ∧ ("grp", "") ∈ rows) := by
  refine ⟨?_, ?_, ?_, ?_⟩
  · exact (c8_help_listing_order_and_visibility.1 specsHelp
      [("Commands", [("bbb", "Bbb.")]), ("Tools", [("aaa", "Aaa.")])] rfl).1
  · exact (c8_help_listing_order_and_visibility.1 specsHelp
      [("Commands", [("bbb", "Bbb.")]), ("Tools", [("aaa", "Aaa.")])] rfl).2.2.2
      "aaa" ((dictGet specsHelp "aaa").getD dummySpec)
      ((load_click_command ((dictGet specsHelp "aaa").getD dummySpec)).2.toOption.getD
        (.stubCmd "" ""))
      rfl rfl rfl
  · exact c8_help_listing_order_and_visibility.2.1 "grp" none none (.ybool false)
      specsHelp "hid" ((dictGet specsHelp "hid").getD dummySpec) rfl
  · exact (c8_help_listing_order_and_visibility.2.2.1 groupsHelp
      [("Commands", [("grp", "")])] rfl).2.2.2
      "grp" ((dictGet groupsHelp "grp").getD ⟨none, none, "", [], .ynull, .ynull, ""⟩)
      (((root_get_command groupsHelp "grp").2.getD (.error "")).toOption.getD
        (.stubCmd "" ""))
      rfl rfl rfl
